import Mathlib

/- Verification of the graph-search core of the AdventCodeTools repository:
   the A* search engine (src/aoc_tools/algorithms/a_star_search.py), the
   exhaustive reachability engine (src/aoc_tools/algorithms/full_search.py and
   src/aoc_tools/algorithms/graphs/full_search.py), and the node contracts
   they operate on.

   Modelling conventions.
   * Python integers are `Int`; the spec's non-negativity invariants on `g`/`h`
     (spec section 3) appear as explicit hypotheses where they are needed.
   * A concrete `ASNode` variant satisfying the node contract of spec section
     4.1 is determined by a state graph: a successor-state list with edge
     costs (`edges`), a heuristic on states (`heur`), and a goal predicate on
     states (`goal`).  `get_successors` builds fresh nodes that carry the
     parent's accumulated cost, and `id` identifies the state, exactly as the
     contract demands ("two different paths reaching the same state must
     produce equal ids", successors carry "a correctly computed g/h").
   * `heapq` is modelled by its contract: `heappop` removes an element that is
     minimal for `ASNode.__lt__` (comparison of `f` values); `heappush` adds
     an element.  Tie order among equal `f` values is arbitrary in the heap
     and fixed (leftmost) in the model; no claim depends on tie order.
   * The Python dict `best_g_costs` keys on `id` values, so it is a function
     `sigma -> Option Int`.  The set `visited_nodes` holds node objects; for
     nodes of a well-formed variant each generated node value arises at most
     once (g strictly decreases per id along pushes), so membership by
     structural node equality coincides with CPython's hash-plus-identity
     membership for the runs modelled here.
   * The engine loops are modelled with fuel; `none` means the fuel ran out.
     Termination theorems produce sufficient fuel explicitly. -/

namespace AStar

/-- A node produced by a concrete `ASNode` variant: its state identifier
(`id`, the hashable key), the accumulated cost from the start (`g`) and the
heuristic estimate (`h`), as in `a_star_search.py`. -/
structure ASNode (σ : Type) where
  id : σ
  g : Int
  h : Int
deriving DecidableEq, Repr

variable {σ : Type}

/-- `ASNode.f`: the sum of the known g and estimated h costs. -/
def f (n : ASNode σ) : Int := n.g + n.h

/-- A caller-defined search problem: the lazily defined state graph
(successor states with edge costs), the heuristic and the goal predicate,
all functions of the state identifier per the node contract of spec 4.1. -/
structure Problem (σ : Type) where
  edges : σ → List (σ × Int)
  heur : σ → Int
  goal : σ → Bool

/-- `ASNode.get_successors`: one fresh node per outgoing edge, carrying the
accumulated cost `parent.g + cost` and the heuristic of the target state. -/
def getSuccessors (P : Problem σ) (n : ASNode σ) : List (ASNode σ) :=
  (P.edges n.id).map (fun e => ⟨e.1, n.g + e.2, P.heur e.1⟩)

/-- Functional update of the best-cost dictionary `best_g_costs`. -/
def updateBest [DecidableEq σ] (best : σ → Option Int) (x : σ) (v : Int) :
    σ → Option Int :=
  fun y => if y = x then some v else best y

/-- The mutable registers of one `a_star_search` call: the frontier
`pending_nodes`, the expanded set `visited_nodes`, and `best_g_costs`. -/
structure AState (σ : Type) where
  pending : List (ASNode σ)
  visited : List (ASNode σ)
  best : σ → Option Int

/-- The body of the successor loop of `a_star_search` for one successor
`s`: skip it if it was already visited, skip it if its `g` is not strictly
below the best recorded cost for its id (absent entries behave as positive
infinity), otherwise push it and record its `g` as the new best cost. -/
def considerSucc [DecidableEq σ] (visited : List (ASNode σ))
    (acc : List (ASNode σ) × (σ → Option Int)) (s : ASNode σ) :
    List (ASNode σ) × (σ → Option Int) :=
  if s ∈ visited then acc
  else
    match acc.2 s.id with
    | some b => if b ≤ s.g then acc
        else (acc.1 ++ [s], updateBest acc.2 s.id s.g)
    | none => (acc.1 ++ [s], updateBest acc.2 s.id s.g)

/-- `heapq.heappop` by its contract: remove an element minimal for
`ASNode.__lt__`, which compares `f` values (leftmost minimum). -/
def popMin : List (ASNode σ) → Option (ASNode σ × List (ASNode σ))
  | [] => none
  | a :: rest =>
    match popMin rest with
    | none => some (a, [])
    | some (m, rest') => if f m < f a then some (m, a :: rest') else some (a, rest)

/-- Result of one iteration of the `while pending_nodes` loop. -/
inductive StepRes (σ : Type) where
  | found (n : ASNode σ)
  | exhausted
  | next (st : AState σ) (popped : ASNode σ)

/-- One iteration of the main loop of `a_star_search`: pop a minimal-f node,
return it if it satisfies the goal, skip it if already visited, otherwise
push its surviving successors and mark it visited.  `exhausted` is the
`raise ValueError` exit taken when the frontier is empty. -/
def aStarStep [DecidableEq σ] (P : Problem σ) (st : AState σ) : StepRes σ :=
  match popMin st.pending with
  | none => .exhausted
  | some (q, rest) =>
    if P.goal q.id then .found q
    else if q ∈ st.visited then .next ⟨rest, st.visited, st.best⟩ q
    else
      let acc := (getSuccessors P q).foldl (considerSucc st.visited) (rest, st.best)
      .next ⟨acc.1, q :: st.visited, acc.2⟩ q

/-- The two ways `a_star_search` can finish: return a node, or raise the
distinct "search could not reach the goal" `ValueError`. -/
inductive Outcome (σ : Type) where
  | found (n : ASNode σ)
  | exhausted
deriving DecidableEq, Repr

/-- The main loop of `a_star_search`, with fuel (`none` = fuel ran out). -/
def aStarRun [DecidableEq σ] (P : Problem σ) : Nat → AState σ → Option (Outcome σ)
  | 0, _ => none
  | fuel + 1, st =>
    match aStarStep P st with
    | .found n => some (.found n)
    | .exhausted => some (.exhausted)
    | .next st' _ => aStarRun P fuel st'

/-- The sequence of nodes popped from the frontier by `a_star_search`
(ghost observation of the same loop; the found node is the last pop). -/
def aStarTrace [DecidableEq σ] (P : Problem σ) : Nat → AState σ → List (ASNode σ)
  | 0, _ => []
  | fuel + 1, st =>
    match aStarStep P st with
    | .found n => [n]
    | .exhausted => []
    | .next st' q => q :: aStarTrace P fuel st'

/-- The start node handed to `a_star_search` by the caller: state `s0`,
accumulated cost `g0` (typically 0), heuristic of `s0`. -/
def startNode (P : Problem σ) (s0 : σ) (g0 : Int) : ASNode σ :=
  ⟨s0, g0, P.heur s0⟩

/-- The registers as built at the top of `a_star_search`:
`pending_nodes = [start]`, `visited_nodes = set()`,
`best_g_costs = {start.id: start.g}`. -/
def initState [DecidableEq σ] (P : Problem σ) (s0 : σ) (g0 : Int) : AState σ :=
  ⟨[startNode P s0 g0], [], updateBest (fun _ => none) s0 g0⟩

/-- `a_star_search(start, goal_func)` with fuel. -/
def aStarSearch [DecidableEq σ] (P : Problem σ) (s0 : σ) (g0 : Int)
    (fuel : Nat) : Option (Outcome σ) :=
  aStarRun P fuel (initState P s0 g0)

/-- The nodes the caller's successor relation can ever hand to the engine:
the start node and everything generated from it by `get_successors`. -/
inductive ReachableNode (P : Problem σ) (s0 : σ) (g0 : Int) : ASNode σ → Prop
  | refl : ReachableNode P s0 g0 (startNode P s0 g0)
  | step {n s : ASNode σ} : ReachableNode P s0 g0 n → s ∈ getSuccessors P n →
      ReachableNode P s0 g0 s

/-- Cost of a chain of edges. -/
def chainCost (l : List (σ × Int)) : Int := (l.map Prod.snd).sum

/-- End state of a chain of edges started at `x`. -/
def chainEnd (x : σ) : List (σ × Int) → σ
  | [] => x
  | (t, _) :: l => chainEnd t l

/-- `isChain P x l`: `l` is a path in the caller's state graph from `x`. -/
def isChain (P : Problem σ) (x : σ) : List (σ × Int) → Prop
  | [] => True
  | (t, c) :: l => (t, c) ∈ P.edges x ∧ isChain P t l


section EngineInvariantDefs

variable [DecidableEq σ]

/-- The loop invariant of `a_star_search` tying the three registers to the
caller's successor relation: all registered nodes are generated by the
relation, every pending or visited node has a recorded best cost at most
its own `g`, the best-cost record is closed under expansion of visited
nodes, every recorded cost is realized by a registered node, and no
visited node satisfies the goal (a goal node returns before being marked
visited). -/
structure Inv (P : Problem σ) (s0 : σ) (g0 : Int) (st : AState σ) : Prop where
  pend_reach : ∀ p ∈ st.pending, ReachableNode P s0 g0 p
  vis_reach : ∀ v ∈ st.visited, ReachableNode P s0 g0 v
  pend_best : ∀ p ∈ st.pending, ∃ b, st.best p.id = some b ∧ b ≤ p.g
  vis_best : ∀ v ∈ st.visited, ∃ b, st.best v.id = some b ∧ b ≤ v.g
  vis_closed : ∀ v ∈ st.visited, ∀ s ∈ getSuccessors P v,
    ∃ b, st.best s.id = some b ∧ b ≤ s.g
  best_wit : ∀ x b, st.best x = some b → ∃ n, ReachableNode P s0 g0 n ∧
    n.id = x ∧ n.g = b ∧ (n ∈ st.pending ∨ n ∈ st.visited)
  vis_nogoal : ∀ v ∈ st.visited, P.goal v.id = false

/-- The optimality witness invariant: some pending node starts a goal
chain whose total cost is at most `gstar`. -/
def OptInv (P : Problem σ) (gstar : Int) (st : AState σ) : Prop :=
  ∃ p ∈ st.pending, ∃ l, isChain P p.id l ∧
    P.goal (chainEnd p.id l) = true ∧ p.g + chainCost l ≤ gstar

/-- Number of reachable states with no recorded best cost yet. -/
def m1 (R : Finset σ) (best : σ → Option Int) : Nat :=
  (R.filter (fun x => best x = none)).card

/-- Total of the recorded best costs over the reachable states. -/
def m2 (R : Finset σ) (best : σ → Option Int) : Nat :=
  R.sum (fun x => match best x with | some b => b.toNat | none => 0)

end EngineInvariantDefs

/-- The set of state identifiers of reachable nodes. -/
def reachIds (P : Problem σ) (s0 : σ) (g0 : Int) : Set σ :=
  {x | ∃ n, ReachableNode P s0 g0 n ∧ n.id = x}

/-- Two-state instance: one edge of cost 3 from state 0 to goal state 1,
zero heuristic. -/
def exP1 : Problem (Fin 2) :=
  ⟨fun x => if x = 0 then [(1, 3)] else [], fun _ => 0, fun x => x == 1⟩

/-- One isolated non-goal state. -/
def exP3 : Problem (Fin 1) :=
  ⟨fun _ => [], fun _ => 0, fun _ => false⟩

/-- State graph with an infinite zero-cost chain 1 -> 3 -> 5 -> ... next to
a cost-1 edge from the start state 0 to the goal state 1000. -/
def cexEdges : Nat → List (Nat × Int) := fun x =>
  if x = 0 then [(1000, 1), (1, 0)]
  else if x % 2 = 1 then [(x + 2, 0)] else []

/-- The infinite-chain problem: goal reachable at cost 1, heuristic zero
(admissible), all costs non-negative, but infinitely many states of f 0. -/
def cexP : Problem Nat := ⟨cexEdges, fun _ => 0, fun x => x == 1000⟩

/-- The pushed goal node of the infinite-chain instance. -/
def gnode : ASNode Nat := ⟨1000, 1, 0⟩

/-- The k-th chain node of the infinite-chain instance. -/
def cnode (k : Nat) : ASNode Nat := ⟨2 * k + 1, 0, 0⟩

/-- Shape of the search state after `k + 1` iterations on the
infinite-chain instance: the frontier holds the goal node (f 1) and the
current chain node (f 0), everything visited sits strictly earlier in the
chain, and no state past the chain head is recorded. -/
structure CexGood (k : Nat) (st : AState Nat) : Prop where
  pending_eq : st.pending = [gnode, cnode k]
  visited_lt : ∀ v ∈ st.visited, v.id < 2 * k + 1
  best_none : ∀ x, 2 * k + 1 < x → x ≠ 1000 → st.best x = none

/-- Three-state chain 0 -> 1 -> 2 with unit costs, goal state 2, and the
admissible but inconsistent heuristic h(0) = 2, h(1) = 0, h(2) = 0. -/
def exP7 : Problem (Fin 3) :=
  ⟨fun x => if x = 0 then [(1, 1)] else if x = 1 then [(2, 1)] else [],
   fun x => if x = 0 then 2 else 0,
   fun x => x == 2⟩

/-- True remaining distances to the goal state of `exP7`. -/
def dlow : Fin 3 → Int := fun x => if x = 0 then 2 else if x = 1 then 1 else 0


end AStar

namespace FullSearch

variable {ν : Type} [DecidableEq ν]

/-- The loop of `full_search` (algorithms/full_search.py): pop the LAST
pending node (`pending_nodes.pop()`), append its not-yet-visited successors
(`pending_nodes.extend(q.get_successors() - visited_nodes)`), mark the
popped node visited, and return the visited set once pending empties.  The
caller's `get_successors` is the Finset-valued function `succ` over
canonical node values (spec 4.3: one node value per state, equality and
hash keyed on id). -/
def fullSearchGo (succ : ν → List ν) : Nat → List ν → Finset ν → Option (Finset ν)
  | 0, _, _ => none
  | fuel + 1, pending, visited =>
    match pending.getLast? with
    | none => some visited
    | some q =>
      fullSearchGo succ fuel (pending.dropLast ++ (succ q).filter (fun s => decide (s ∉ visited)))
        (insert q visited)

/-- `full_search(start)` with fuel: pending starts as `[start]`, visited
empty. -/
def fullSearch (succ : ν → List ν) (start : ν) (fuel : Nat) :
    Option (Finset ν) :=
  fullSearchGo succ fuel [start] ∅

/-- A node reachable from `start` by a finite chain of successor steps. -/
def Reach (succ : ν → List ν) (start : ν) : ν → Prop :=
  Relation.ReflTransGen (fun a b => b ∈ succ a) start

/-- The loop invariant of `full_search`: pending and visited nodes are
reachable, the start is registered, and every successor of a visited node
is itself visited or pending. -/
def InvFS (succ : ν → List ν) (start : ν) (p : List ν) (v : Finset ν) : Prop :=
  (∀ x ∈ p, Reach succ start x) ∧ (∀ x ∈ v, Reach succ start x) ∧
  (start ∈ p ∨ start ∈ v) ∧
  (∀ x ∈ v, ∀ s ∈ succ x, s ∈ v ∨ s ∈ p)

/-- The diamond of the spec's concrete scenario: 0 -> {1, 2}, 1 -> {3},
2 -> {3}, 3 -> {}. -/
def exFS : Fin 4 → List (Fin 4) :=
  fun x => if x = 0 then [1, 2] else if x = 3 then [] else [3]

/-- One isolated node. -/
def exFS8 : Fin 1 → List (Fin 1) := fun _ => []

end FullSearch

namespace GraphsFullSearch

variable {ν : Type} [DecidableEq ν]

/-- The loop of `full_search` in algorithms/graphs/full_search.py.  Its body
is textually identical to the one in algorithms/full_search.py; only the
node ABC differs (its hash is a stored value instead of `hash(self.id)`),
which does not affect membership decisions for canonical node values. -/
def fullSearchGo (succ : ν → List ν) : Nat → List ν → Finset ν → Option (Finset ν)
  | 0, _, _ => none
  | fuel + 1, pending, visited =>
    match pending.getLast? with
    | none => some visited
    | some q =>
      fullSearchGo succ fuel
        (pending.dropLast ++ (succ q).filter (fun s => decide (s ∉ visited)))
        (insert q visited)

/-- `full_search(start)` of the graphs variant, with fuel. -/
def fullSearch (succ : ν → List ν) (start : ν) (fuel : Nat) :
    Option (Finset ν) :=
  fullSearchGo succ fuel [start] ∅

end GraphsFullSearch

namespace PyObjects

/-- A Python object of a concrete `ASNode` subclass: `ref` is the object's
identity, the other fields are the node-contract attributes.  The ABC
defines `__hash__` as `hash(self.id)` but does NOT define `__eq__`, so
equality is the inherited `object.__eq__`: two objects compare equal
exactly when they are the same object. -/
structure ASNodeObj (σ : Type) where
  ref : Nat
  id : σ
  g : Int
  h : Int
deriving DecidableEq, Repr

/-- `object.__eq__` for ASNode: identity (a value of `ASNodeObj` models one
object, so identity is value equality including `ref`). -/
def asNodeEq {σ : Type} [DecidableEq σ] (a b : ASNodeObj σ) : Bool :=
  decide (a = b)

/-- `ASNode.__hash__`: `hash(self.id)`, for the interpreter's hash `hsh`. -/
def asNodeHash {σ : Type} (hsh : σ → Int) (a : ASNodeObj σ) : Int :=
  hsh a.id

/-- A Python object of a concrete `FNode` subclass (full_search.py): `ref`
is the object identity; `id` is its string identifier.  `__hash__` is
`hash(self.id)`; `__eq__` is again not overridden. -/
structure FNodeObj where
  ref : Nat
  id : String
deriving DecidableEq, Repr

/-- `object.__eq__` for FNode: identity. -/
def fNodeEq (a b : FNodeObj) : Bool := decide (a = b)

/-- `FNode.__hash__`: `hash(self.id)`. -/
def fNodeHash (hsh : String → Int) (a : FNodeObj) : Int := hsh a.id

end PyObjects

namespace AStar

variable {σ : Type}

section PopMinLemmas

theorem popMin_eq_none {l : List (ASNode σ)} : popMin l = none ↔ l = [] := by
  constructor
  · intro h
    cases l with
    | nil => rfl
    | cons a rest =>
      exfalso
      rw [popMin] at h
      cases hrest : popMin rest with
      | none => rw [hrest] at h; simp at h
      | some p =>
        obtain ⟨m, rest'⟩ := p
        rw [hrest] at h
        simp only at h
        by_cases hc : f m < f a
        · rw [if_pos hc] at h; cases h
        · rw [if_neg hc] at h; cases h
  · intro h; subst h; rfl

theorem popMin_perm {l rest : List (ASNode σ)} {q : ASNode σ}
    (h : popMin l = some (q, rest)) : l.Perm (q :: rest) := by
  induction l generalizing q rest with
  | nil => rw [popMin] at h; cases h
  | cons a tl ih =>
    rw [popMin] at h
    cases htl : popMin tl with
    | none =>
      have htl' : tl = [] := popMin_eq_none.mp htl
      rw [htl] at h
      simp only at h
      cases h
      subst htl'
      exact List.Perm.refl _
    | some p =>
      obtain ⟨m, rest'⟩ := p
      rw [htl] at h
      simp only at h
      by_cases hc : f m < f a
      · rw [if_pos hc] at h
        cases h
        have hperm := ih htl
        exact (hperm.cons a).trans (List.Perm.swap q a rest')
      · rw [if_neg hc] at h
        cases h
        exact List.Perm.refl _

theorem popMin_min {l rest : List (ASNode σ)} {q : ASNode σ}
    (h : popMin l = some (q, rest)) : ∀ x ∈ l, f q ≤ f x := by
  induction l generalizing q rest with
  | nil => rw [popMin] at h; cases h
  | cons a tl ih =>
    rw [popMin] at h
    cases htl : popMin tl with
    | none =>
      have htl' : tl = [] := popMin_eq_none.mp htl
      rw [htl] at h
      simp only at h
      cases h
      subst htl'
      intro x hx
      rcases List.mem_singleton.mp hx with rfl
      exact le_refl _
    | some p =>
      obtain ⟨m, rest'⟩ := p
      rw [htl] at h
      simp only at h
      by_cases hc : f m < f a
      · rw [if_pos hc] at h
        cases h
        intro x hx
        rcases List.mem_cons.mp hx with rfl | hx
        · omega
        · exact ih htl x hx
      · rw [if_neg hc] at h
        cases h
        intro x hx
        rcases List.mem_cons.mp hx with rfl | hx
        · exact le_refl _
        · have := ih htl x hx
          omega

theorem popMin_mem {l rest : List (ASNode σ)} {q : ASNode σ}
    (h : popMin l = some (q, rest)) : q ∈ l :=
  ((popMin_perm h).mem_iff).mpr (List.mem_cons_self _ _)

theorem popMin_rest_subset {l rest : List (ASNode σ)} {q : ASNode σ}
    (h : popMin l = some (q, rest)) : ∀ x ∈ rest, x ∈ l := by
  intro x hx
  exact ((popMin_perm h).mem_iff).mpr (List.mem_cons_of_mem _ hx)

theorem popMin_length {l rest : List (ASNode σ)} {q : ASNode σ}
    (h : popMin l = some (q, rest)) : l.length = rest.length + 1 := by
  have := (popMin_perm h).length_eq
  simpa using this

end PopMinLemmas

section StepLemmas

variable [DecidableEq σ]

/-- Case analysis for a `.next` step outcome. -/
theorem step_next_cases {P : Problem σ} {st st' : AState σ} {q : ASNode σ}
    (h : aStarStep P st = .next st' q) :
    ∃ rest, popMin st.pending = some (q, rest) ∧ P.goal q.id = false ∧
      ((q ∈ st.visited ∧ st' = ⟨rest, st.visited, st.best⟩) ∨
       (q ∉ st.visited ∧
        st' = ⟨((getSuccessors P q).foldl (considerSucc st.visited) (rest, st.best)).1,
               q :: st.visited,
               ((getSuccessors P q).foldl (considerSucc st.visited) (rest, st.best)).2⟩)) := by
  unfold aStarStep at h
  cases hp : popMin st.pending with
  | none => rw [hp] at h; cases h
  | some p =>
    obtain ⟨q', rest⟩ := p
    rw [hp] at h
    simp only at h
    by_cases hg : P.goal q'.id = true
    · rw [if_pos hg] at h; cases h
    · rw [if_neg hg] at h
      by_cases hv : q' ∈ st.visited
      · rw [if_pos hv] at h
        cases h
        exact ⟨rest, rfl, by simpa using hg, Or.inl ⟨hv, rfl⟩⟩
      · rw [if_neg hv] at h
        cases h
        exact ⟨rest, rfl, by simpa using hg, Or.inr ⟨hv, rfl⟩⟩

theorem step_found_cases {P : Problem σ} {st : AState σ} {n : ASNode σ}
    (h : aStarStep P st = .found n) :
    ∃ rest, popMin st.pending = some (n, rest) ∧ P.goal n.id = true := by
  unfold aStarStep at h
  cases hp : popMin st.pending with
  | none => rw [hp] at h; cases h
  | some p =>
    obtain ⟨q', rest⟩ := p
    rw [hp] at h
    simp only at h
    by_cases hg : P.goal q'.id = true
    · rw [if_pos hg] at h
      cases h
      exact ⟨rest, rfl, hg⟩
    · rw [if_neg hg] at h
      by_cases hv : q' ∈ st.visited
      · rw [if_pos hv] at h; cases h
      · rw [if_neg hv] at h; cases h

theorem step_exhausted_cases {P : Problem σ} {st : AState σ}
    (h : aStarStep P st = .exhausted) : st.pending = [] := by
  unfold aStarStep at h
  cases hp : popMin st.pending with
  | none => exact popMin_eq_none.mp hp
  | some p =>
    obtain ⟨q', rest⟩ := p
    rw [hp] at h
    simp only at h
    by_cases hg : P.goal q'.id = true
    · rw [if_pos hg] at h; cases h
    · rw [if_neg hg] at h
      by_cases hv : q' ∈ st.visited
      · rw [if_pos hv] at h; cases h
      · rw [if_neg hv] at h; cases h

end StepLemmas

section FoldLemmas

variable [DecidableEq σ]

theorem updateBest_self (best : σ → Option Int) (x : σ) (v : Int) :
    updateBest best x v x = some v := by
  simp [updateBest]

theorem updateBest_other (best : σ → Option Int) (x : σ) (v : Int) {y : σ}
    (h : y ≠ x) : updateBest best x v y = best y := by
  simp [updateBest, h]

theorem considerSucc_of_visited {visited : List (ASNode σ)}
    {acc : List (ASNode σ) × (σ → Option Int)} {s : ASNode σ}
    (h : s ∈ visited) : considerSucc visited acc s = acc := by
  simp [considerSucc, h]

theorem considerSucc_of_skip {visited : List (ASNode σ)}
    {acc : List (ASNode σ) × (σ → Option Int)} {s : ASNode σ} {b : Int}
    (h : s ∉ visited) (hb : acc.2 s.id = some b) (hle : b ≤ s.g) :
    considerSucc visited acc s = acc := by
  simp [considerSucc, h, hb, hle]

theorem considerSucc_of_push_none {visited : List (ASNode σ)}
    {acc : List (ASNode σ) × (σ → Option Int)} {s : ASNode σ}
    (h : s ∉ visited) (hb : acc.2 s.id = none) :
    considerSucc visited acc s = (acc.1 ++ [s], updateBest acc.2 s.id s.g) := by
  simp [considerSucc, h, hb]

theorem considerSucc_of_push_some {visited : List (ASNode σ)}
    {acc : List (ASNode σ) × (σ → Option Int)} {s : ASNode σ} {b : Int}
    (h : s ∉ visited) (hb : acc.2 s.id = some b) (hlt : s.g < b) :
    considerSucc visited acc s = (acc.1 ++ [s], updateBest acc.2 s.id s.g) := by
  have : ¬ b ≤ s.g := by omega
  simp [considerSucc, h, hb, this]

/-- Full behavioural description of the successor loop of `a_star_search`:
the fold appends the pushed successors `newly` to the frontier, each pushed
successor is unvisited and strictly improves on the best recorded cost of
its id, recorded best costs only decrease, every changed record comes from a
pushed successor and strictly decreases, and every successor ends up either
visited or with a recorded best cost at most its own g. -/
theorem considerSucc_fold_spec (visited : List (ASNode σ)) :
    ∀ (ss pend : List (ASNode σ)) (best : σ → Option Int),
    ∃ newly : List (ASNode σ),
      (ss.foldl (considerSucc visited) (pend, best)).1 = pend ++ newly ∧
      (newly = [] → (ss.foldl (considerSucc visited) (pend, best)).2 = best) ∧
      (∀ s ∈ newly, s ∈ ss ∧ s ∉ visited ∧
        (∀ w, best s.id = some w → s.g < w) ∧
        (∃ b, (ss.foldl (considerSucc visited) (pend, best)).2 s.id = some b ∧ b ≤ s.g)) ∧
      (∀ x w, best x = some w →
        ∃ b, (ss.foldl (considerSucc visited) (pend, best)).2 x = some b ∧ b ≤ w) ∧
      (∀ x v, (ss.foldl (considerSucc visited) (pend, best)).2 x = some v →
        (best x = some v) ∨ ((best x = none ∨ ∃ w, best x = some w ∧ v < w) ∧
          ∃ s, s ∈ newly ∧ s.id = x ∧ s.g = v)) ∧
      (∀ s ∈ ss, s ∈ visited ∨
        ∃ b, (ss.foldl (considerSucc visited) (pend, best)).2 s.id = some b ∧ b ≤ s.g) := by
  intro ss
  induction ss with
  | nil =>
    intro pend best
    refine ⟨[], by simp, fun _ => rfl, by simp, ?_, ?_, by simp⟩
    · intro x w hw
      exact ⟨w, hw, le_refl w⟩
    · intro x v hv
      exact Or.inl hv
  | cons s ss' ih =>
    intro pend best
    by_cases hv : s ∈ visited
    · -- successor already visited: skipped
      obtain ⟨newly, h1, h2, h3, h4, h5, h6⟩ := ih pend best
      have hacc : considerSucc visited (pend, best) s = (pend, best) :=
        considerSucc_of_visited hv
      refine ⟨newly, ?_, ?_, ?_, ?_, ?_, ?_⟩ <;>
        simp only [List.foldl_cons, hacc]
      · exact h1
      · exact h2
      · intro s' hs'
        obtain ⟨hm, hnv, hlt, hb⟩ := h3 s' hs'
        exact ⟨List.mem_cons_of_mem _ hm, hnv, hlt, hb⟩
      · exact h4
      · exact h5
      · intro s' hs'
        rcases List.mem_cons.mp hs' with rfl | hs'
        · exact Or.inl hv
        · exact h6 s' hs'
    · cases hb : best s.id with
      | some b =>
        by_cases hle : b ≤ s.g
        · -- successor's g not strictly better: skipped
          obtain ⟨newly, h1, h2, h3, h4, h5, h6⟩ := ih pend best
          have hacc : considerSucc visited (pend, best) s = (pend, best) :=
            considerSucc_of_skip hv hb hle
          refine ⟨newly, ?_, ?_, ?_, ?_, ?_, ?_⟩ <;>
            simp only [List.foldl_cons, hacc]
          · exact h1
          · exact h2
          · intro s' hs'
            obtain ⟨hm, hnv, hlt, hbr⟩ := h3 s' hs'
            exact ⟨List.mem_cons_of_mem _ hm, hnv, hlt, hbr⟩
          · exact h4
          · exact h5
          · intro s' hs'
            rcases List.mem_cons.mp hs' with rfl | hs'
            · obtain ⟨b', hb', hle'⟩ := h4 s'.id b hb
              exact Or.inr ⟨b', hb', le_trans hle' hle⟩
            · exact h6 s' hs'
        · -- push, improving a recorded cost
          have hlt : s.g < b := by omega
          have hacc : considerSucc visited (pend, best) s =
              (pend ++ [s], updateBest best s.id s.g) :=
            considerSucc_of_push_some hv hb hlt
          obtain ⟨newly', h1, h2, h3, h4, h5, h6⟩ :=
            ih (pend ++ [s]) (updateBest best s.id s.g)
          refine ⟨s :: newly', ?_, ?_, ?_, ?_, ?_, ?_⟩ <;>
            simp only [List.foldl_cons, hacc]
          · rw [h1, List.append_assoc]
            rfl
          · intro h; cases h
          · intro s' hs'
            rcases List.mem_cons.mp hs' with rfl | hs'
            · refine ⟨List.mem_cons_self _ _, hv, ?_, ?_⟩
              · intro w hw
                rw [hb] at hw
                cases hw
                exact hlt
              · have := h4 s'.id s'.g (updateBest_self best s'.id s'.g)
                exact this
            · obtain ⟨hm, hnv, hlt', hbr⟩ := h3 s' hs'
              refine ⟨List.mem_cons_of_mem _ hm, hnv, ?_, hbr⟩
              intro w hw
              by_cases hid : s'.id = s.id
              · rw [hid, hb] at hw
                cases hw
                have := hlt' s.g (by rw [hid]; exact updateBest_self best s.id s.g)
                omega
              · exact hlt' w (by rw [updateBest_other best s.id s.g hid]; exact hw)
          · intro x w hw
            by_cases hid : x = s.id
            · subst hid
              rw [hb] at hw
              cases hw
              obtain ⟨b', hb', hle'⟩ := h4 s.id s.g (updateBest_self best s.id s.g)
              exact ⟨b', hb', by omega⟩
            · exact h4 x w (by rw [updateBest_other best s.id s.g hid]; exact hw)
          · intro x v hv'
            rcases h5 x v hv' with hsame | ⟨hstrict, s', hs', hid, hg⟩
            · by_cases hid : x = s.id
              · subst hid
                rw [updateBest_self] at hsame
                cases hsame
                exact Or.inr ⟨Or.inr ⟨b, hb, hlt⟩, s, List.mem_cons_self _ _, rfl, rfl⟩
              · rw [updateBest_other best s.id s.g hid] at hsame
                exact Or.inl hsame
            · refine Or.inr ⟨?_, s', List.mem_cons_of_mem _ hs', hid, hg⟩
              by_cases hidx : x = s.id
              · subst hidx
                rcases hstrict with hnone | ⟨w, hw, hvw⟩
                · rw [updateBest_self] at hnone; cases hnone
                · rw [updateBest_self] at hw
                  cases hw
                  exact Or.inr ⟨b, hb, by omega⟩
              · rw [updateBest_other best s.id s.g hidx] at hstrict
                exact hstrict
          · intro s' hs'
            rcases List.mem_cons.mp hs' with rfl | hs'
            · obtain ⟨b', hb', hle'⟩ := h4 s'.id s'.g (updateBest_self best s'.id s'.g)
              exact Or.inr ⟨b', hb', hle'⟩
            · exact h6 s' hs'
      | none =>
        -- push, first record for this id
        have hacc : considerSucc visited (pend, best) s =
            (pend ++ [s], updateBest best s.id s.g) :=
          considerSucc_of_push_none hv hb
        obtain ⟨newly', h1, h2, h3, h4, h5, h6⟩ :=
          ih (pend ++ [s]) (updateBest best s.id s.g)
        refine ⟨s :: newly', ?_, ?_, ?_, ?_, ?_, ?_⟩ <;>
          simp only [List.foldl_cons, hacc]
        · rw [h1, List.append_assoc]
          rfl
        · intro h; cases h
        · intro s' hs'
          rcases List.mem_cons.mp hs' with rfl | hs'
          · refine ⟨List.mem_cons_self _ _, hv, ?_, ?_⟩
            · intro w hw
              rw [hb] at hw
              cases hw
            · exact h4 s'.id s'.g (updateBest_self best s'.id s'.g)
          · obtain ⟨hm, hnv, hlt', hbr⟩ := h3 s' hs'
            refine ⟨List.mem_cons_of_mem _ hm, hnv, ?_, hbr⟩
            intro w hw
            by_cases hid : s'.id = s.id
            · rw [hid, hb] at hw
              cases hw
            · exact hlt' w (by rw [updateBest_other best s.id s.g hid]; exact hw)
        · intro x w hw
          by_cases hid : x = s.id
          · subst hid
            rw [hb] at hw
            cases hw
          · exact h4 x w (by rw [updateBest_other best s.id s.g hid]; exact hw)
        · intro x v hv'
          rcases h5 x v hv' with hsame | ⟨hstrict, s', hs', hid, hg⟩
          · by_cases hid : x = s.id
            · subst hid
              rw [updateBest_self] at hsame
              cases hsame
              exact Or.inr ⟨Or.inl hb, s, List.mem_cons_self _ _, rfl, rfl⟩
            · rw [updateBest_other best s.id s.g hid] at hsame
              exact Or.inl hsame
          · refine Or.inr ⟨?_, s', List.mem_cons_of_mem _ hs', hid, hg⟩
            by_cases hidx : x = s.id
            · subst hidx
              rcases hstrict with hnone | ⟨w, hw, hvw⟩
              · rw [updateBest_self] at hnone; cases hnone
              · rw [updateBest_self] at hw
                cases hw
                exact Or.inl hb
            · rw [updateBest_other best s.id s.g hidx] at hstrict
              exact hstrict
        · intro s' hs'
          rcases List.mem_cons.mp hs' with rfl | hs'
          · obtain ⟨b', hb', hle'⟩ := h4 s'.id s'.g (updateBest_self best s'.id s'.g)
            exact Or.inr ⟨b', hb', hle'⟩
          · exact h6 s' hs'

end FoldLemmas

section ChainLemmas

theorem chainCost_nil : chainCost ([] : List (σ × Int)) = 0 := rfl

theorem chainCost_cons (e : σ × Int) (l : List (σ × Int)) :
    chainCost (e :: l) = e.2 + chainCost l := by
  simp [chainCost]

theorem chainCost_append (l₁ l₂ : List (σ × Int)) :
    chainCost (l₁ ++ l₂) = chainCost l₁ + chainCost l₂ := by
  simp [chainCost]

theorem chainEnd_append (x : σ) (l₁ l₂ : List (σ × Int)) :
    chainEnd x (l₁ ++ l₂) = chainEnd (chainEnd x l₁) l₂ := by
  induction l₁ generalizing x with
  | nil => rfl
  | cons e l ih =>
    obtain ⟨t, c⟩ := e
    simp [chainEnd, ih]

theorem isChain_append {P : Problem σ} {x : σ} {l₁ l₂ : List (σ × Int)}
    (h₁ : isChain P x l₁) (h₂ : isChain P (chainEnd x l₁) l₂) :
    isChain P x (l₁ ++ l₂) := by
  induction l₁ generalizing x with
  | nil => exact h₂
  | cons e l ih =>
    obtain ⟨t, c⟩ := e
    obtain ⟨he, hl⟩ := h₁
    exact ⟨he, ih hl h₂⟩

theorem mem_getSuccessors {P : Problem σ} {n s : ASNode σ} :
    s ∈ getSuccessors P n ↔
      ∃ e, e ∈ P.edges n.id ∧ s = ⟨e.1, n.g + e.2, P.heur e.1⟩ := by
  constructor
  · intro h
    obtain ⟨e, he, rfl⟩ := List.mem_map.mp h
    exact ⟨e, he, rfl⟩
  · rintro ⟨e, he, rfl⟩
    exact List.mem_map.mpr ⟨e, he, rfl⟩

/-- Every node the successor relation generates is the end of a chain of
edges from the start state, with `g` the accumulated chain cost. -/
theorem reachableNode_chain {P : Problem σ} {s0 : σ} {g0 : Int} {n : ASNode σ}
    (h : ReachableNode P s0 g0 n) :
    ∃ l, isChain P s0 l ∧ chainEnd s0 l = n.id ∧ n.g = g0 + chainCost l := by
  induction h with
  | refl => exact ⟨[], trivial, rfl, by simp [chainCost, startNode]⟩
  | step hn hs ih =>
    obtain ⟨l, hchain, hend, hg⟩ := ih
    obtain ⟨e, he, rfl⟩ := mem_getSuccessors.mp hs
    refine ⟨l ++ [(e.1, e.2)], ?_, ?_, ?_⟩
    · refine isChain_append hchain ?_
      rw [hend]
      exact ⟨he, trivial⟩
    · rw [chainEnd_append, hend]
      rfl
    · rw [chainCost_append, hg, chainCost_cons, chainCost_nil]
      ring

end ChainLemmas

section Invariants

variable [DecidableEq σ]


theorem inv_init (P : Problem σ) (s0 : σ) (g0 : Int) :
    Inv P s0 g0 (initState P s0 g0) := by
  constructor
  · intro p hp
    simp only [initState] at hp
    rcases List.mem_singleton.mp hp with rfl
    exact ReachableNode.refl
  · intro v hv; simp only [initState] at hv; cases hv
  · intro p hp
    simp only [initState] at hp ⊢
    rcases List.mem_singleton.mp hp with rfl
    exact ⟨g0, updateBest_self _ _ _, le_refl _⟩
  · intro v hv; simp only [initState] at hv; cases hv
  · intro v hv; simp only [initState] at hv; cases hv
  · intro x b hb
    simp only [initState] at hb ⊢
    by_cases hx : x = s0
    · subst hx
      rw [updateBest_self] at hb
      cases hb
      exact ⟨startNode P x g0, ReachableNode.refl, rfl, rfl,
        Or.inl (List.mem_singleton.mpr rfl)⟩
    · rw [updateBest_other _ _ _ hx] at hb
      cases hb
  · intro v hv; simp only [initState] at hv; cases hv

/-- One loop iteration preserves the invariant. -/
theorem inv_step {P : Problem σ} {s0 : σ} {g0 : Int} {st st' : AState σ}
    {q : ASNode σ} (hst : aStarStep P st = .next st' q)
    (hInv : Inv P s0 g0 st) : Inv P s0 g0 st' := by
  obtain ⟨rest, hp, hgoal, hcase⟩ := step_next_cases hst
  rcases hcase with ⟨hv, rfl⟩ | ⟨hv, rfl⟩
  · -- already-visited pop: drop the node and continue
    constructor
    · intro p hpr
      exact hInv.pend_reach p (popMin_rest_subset hp p hpr)
    · exact hInv.vis_reach
    · intro p hpr
      exact hInv.pend_best p (popMin_rest_subset hp p hpr)
    · exact hInv.vis_best
    · exact hInv.vis_closed
    · intro x b hb
      obtain ⟨n, hn, hid, hg, hloc⟩ := hInv.best_wit x b hb
      refine ⟨n, hn, hid, hg, ?_⟩
      rcases hloc with hnp | hnv
      · rcases List.mem_cons.mp ((popMin_perm hp).mem_iff.mp hnp) with rfl | hnr
        · exact Or.inr hv
        · exact Or.inl hnr
      · exact Or.inr hnv
    · exact hInv.vis_nogoal
  · -- expansion of a fresh node
    have hq_reach : ReachableNode P s0 g0 q := hInv.pend_reach q (popMin_mem hp)
    obtain ⟨newly, h1, h2, h3, h4, h5, h6⟩ :=
      considerSucc_fold_spec st.visited (getSuccessors P q) rest st.best
    constructor
    · intro p hpr
      rw [h1] at hpr
      rcases List.mem_append.mp hpr with hpr | hpr
      · exact hInv.pend_reach p (popMin_rest_subset hp p hpr)
      · exact ReachableNode.step hq_reach (h3 p hpr).1
    · intro v hvr
      rcases List.mem_cons.mp hvr with rfl | hvr
      · exact hq_reach
      · exact hInv.vis_reach v hvr
    · intro p hpr
      rw [h1] at hpr
      rcases List.mem_append.mp hpr with hpr | hpr
      · obtain ⟨b, hb, hble⟩ := hInv.pend_best p (popMin_rest_subset hp p hpr)
        obtain ⟨b', hb', hble'⟩ := h4 p.id b hb
        exact ⟨b', hb', le_trans hble' hble⟩
      · exact (h3 p hpr).2.2.2
    · intro v hvr
      rcases List.mem_cons.mp hvr with rfl | hvr
      · obtain ⟨b, hb, hble⟩ := hInv.pend_best v (popMin_mem hp)
        obtain ⟨b', hb', hble'⟩ := h4 v.id b hb
        exact ⟨b', hb', le_trans hble' hble⟩
      · obtain ⟨b, hb, hble⟩ := hInv.vis_best v hvr
        obtain ⟨b', hb', hble'⟩ := h4 v.id b hb
        exact ⟨b', hb', le_trans hble' hble⟩
    · intro v hvr s hs
      rcases List.mem_cons.mp hvr with rfl | hvr
      · rcases h6 s hs with hsv | hrec
        · obtain ⟨b, hb, hble⟩ := hInv.vis_best s hsv
          obtain ⟨b', hb', hble'⟩ := h4 s.id b hb
          exact ⟨b', hb', le_trans hble' hble⟩
        · exact hrec
      · obtain ⟨b, hb, hble⟩ := hInv.vis_closed v hvr s hs
        obtain ⟨b', hb', hble'⟩ := h4 s.id b hb
        exact ⟨b', hb', le_trans hble' hble⟩
    · intro x b hb
      rcases h5 x b hb with hsame | ⟨_, s, hsmem, hsid, hsg⟩
      · obtain ⟨n, hn, hid, hg, hloc⟩ := hInv.best_wit x b hsame
        refine ⟨n, hn, hid, hg, ?_⟩
        rcases hloc with hnp | hnv
        · rcases List.mem_cons.mp ((popMin_perm hp).mem_iff.mp hnp) with rfl | hnr
          · exact Or.inr (List.mem_cons_self _ _)
          · exact Or.inl (by rw [h1]; exact List.mem_append.mpr (Or.inl hnr))
        · exact Or.inr (List.mem_cons_of_mem _ hnv)
      · refine ⟨s, ReachableNode.step hq_reach (h3 s hsmem).1, hsid, hsg, ?_⟩
        exact Or.inl (by rw [h1]; exact List.mem_append.mpr (Or.inr hsmem))
    · intro v hvr
      rcases List.mem_cons.mp hvr with rfl | hvr
      · exact hgoal
      · exact hInv.vis_nogoal v hvr


/-- Descent along a goal chain: a registered node (pending or visited)
carrying a goal chain within budget yields a pending witness. -/
theorem descent {P : Problem σ} {s0 : σ} {g0 gstar : Int} {st : AState σ}
    (hInv : Inv P s0 g0 st) :
    ∀ (l : List (σ × Int)) (n : ASNode σ),
      (n ∈ st.pending ∨ n ∈ st.visited) → isChain P n.id l →
      P.goal (chainEnd n.id l) = true → n.g + chainCost l ≤ gstar →
      OptInv P gstar st := by
  intro l
  induction l with
  | nil =>
    intro n hloc hchain hgoal hbound
    rcases hloc with hnp | hnv
    · exact ⟨n, hnp, [], trivial, hgoal, hbound⟩
    · have hng := hInv.vis_nogoal n hnv
      simp only [chainEnd] at hgoal
      rw [hng] at hgoal
      cases hgoal
  | cons e l' ih =>
    obtain ⟨t, c⟩ := e
    intro n hloc hchain hgoal hbound
    rcases hloc with hnp | hnv
    · exact ⟨n, hnp, (t, c) :: l', hchain, hgoal, hbound⟩
    · obtain ⟨he, hl'⟩ := hchain
      have hsucc : (⟨t, n.g + c, P.heur t⟩ : ASNode σ) ∈ getSuccessors P n :=
        mem_getSuccessors.mpr ⟨(t, c), he, rfl⟩
      obtain ⟨b, hb, hble⟩ := hInv.vis_closed n hnv _ hsucc
      obtain ⟨n', hn', hid', hg', hloc'⟩ := hInv.best_wit t b hb
      have hchain' : isChain P n'.id l' := by rw [hid']; exact hl'
      have hgoal' : P.goal (chainEnd n'.id l') = true := by rw [hid']; exact hgoal
      refine ih n' hloc' hchain' hgoal' ?_
      rw [chainCost_cons] at hbound
      simp only at hble
      omega

/-- One loop iteration preserves the optimality witness. -/
theorem optinv_step {P : Problem σ} {s0 : σ} {g0 gstar : Int}
    {st st' : AState σ} {q : ASNode σ} (hst : aStarStep P st = .next st' q)
    (hInv' : Inv P s0 g0 st') (hOpt : OptInv P gstar st) :
    OptInv P gstar st' := by
  obtain ⟨p, hp_pend, l, hchain, hgoal, hbound⟩ := hOpt
  obtain ⟨rest, hp, hgoalq, hcase⟩ := step_next_cases hst
  rcases hcase with ⟨hv, rfl⟩ | ⟨hv, rfl⟩
  · rcases List.mem_cons.mp ((popMin_perm hp).mem_iff.mp hp_pend) with rfl | hnr
    · exact descent hInv' l p (Or.inr hv) hchain hgoal hbound
    · exact ⟨p, hnr, l, hchain, hgoal, hbound⟩
  · obtain ⟨newly, h1, _, _, _, _, _⟩ :=
      considerSucc_fold_spec st.visited (getSuccessors P q) rest st.best
    rcases List.mem_cons.mp ((popMin_perm hp).mem_iff.mp hp_pend) with rfl | hnr
    · exact descent hInv' l p (Or.inr (List.mem_cons_self _ _)) hchain hgoal hbound
    · refine ⟨p, ?_, l, hchain, hgoal, hbound⟩
      simp only
      rw [h1]
      exact List.mem_append.mpr (Or.inl hnr)

/-- When the loop returns a node, that node is reachable, satisfies the
goal, and its g is within the optimal budget. -/
theorem found_opt {P : Problem σ} {s0 : σ} {g0 gstar : Int} {st : AState σ}
    {n : ASNode σ} (hst : aStarStep P st = .found n)
    (hInv : Inv P s0 g0 st) (hOpt : OptInv P gstar st)
    (hadm : ∀ m, ReachableNode P s0 g0 m → ∀ l, isChain P m.id l →
      P.goal (chainEnd m.id l) = true → m.h ≤ chainCost l)
    (hh : ∀ m, ReachableNode P s0 g0 m → 0 ≤ m.h) :
    P.goal n.id = true ∧ ReachableNode P s0 g0 n ∧ n.g ≤ gstar := by
  obtain ⟨rest, hp, hgoal⟩ := step_found_cases hst
  obtain ⟨p, hp_pend, l, hchain, hgoalp, hbound⟩ := hOpt
  have hn_reach : ReachableNode P s0 g0 n := hInv.pend_reach n (popMin_mem hp)
  have hp_reach : ReachableNode P s0 g0 p := hInv.pend_reach p hp_pend
  have hmin : f n ≤ f p := popMin_min hp p hp_pend
  have hfp : f p ≤ p.g + chainCost l := by
    have := hadm p hp_reach l hchain hgoalp
    unfold f
    omega
  have hfn : n.g ≤ f n := by
    have := hh n hn_reach
    unfold f
    omega
  exact ⟨hgoal, hn_reach, by omega⟩

/-- A completed run that preserved the invariants ends in `found`, with an
optimal node; it cannot exhaust the frontier while a witness is pending. -/
theorem run_inv_found {P : Problem σ} {s0 : σ} {g0 gstar : Int}
    (hadm : ∀ m, ReachableNode P s0 g0 m → ∀ l, isChain P m.id l →
      P.goal (chainEnd m.id l) = true → m.h ≤ chainCost l)
    (hh : ∀ m, ReachableNode P s0 g0 m → 0 ≤ m.h) :
    ∀ (fuel : Nat) (st : AState σ) (r : Outcome σ),
      aStarRun P fuel st = some r → Inv P s0 g0 st → OptInv P gstar st →
      ∃ n, r = .found n ∧ P.goal n.id = true ∧ ReachableNode P s0 g0 n ∧
        n.g ≤ gstar := by
  intro fuel
  induction fuel with
  | zero => intro st r hr; cases hr
  | succ fuel ih =>
    intro st r hr hInv hOpt
    rw [aStarRun] at hr
    cases hstep : aStarStep P st with
    | found n =>
      rw [hstep] at hr
      cases hr
      obtain ⟨hgoal, hreach, hle⟩ := found_opt hstep hInv hOpt hadm hh
      exact ⟨n, rfl, hgoal, hreach, hle⟩
    | exhausted =>
      exfalso
      obtain ⟨p, hp_pend, _⟩ := hOpt
      rw [step_exhausted_cases hstep] at hp_pend
      cases hp_pend
    | next st' q =>
      rw [hstep] at hr
      simp only at hr
      have hInv' := inv_step hstep hInv
      exact ih st' r hr hInv' (optinv_step hstep hInv' hOpt)

/-- A completed run that returns a node returns a reachable goal node. -/
theorem run_found_reach {P : Problem σ} {s0 : σ} {g0 : Int} :
    ∀ (fuel : Nat) (st : AState σ) (n : ASNode σ),
      aStarRun P fuel st = some (.found n) → Inv P s0 g0 st →
      ReachableNode P s0 g0 n ∧ P.goal n.id = true := by
  intro fuel
  induction fuel with
  | zero => intro st n hr; cases hr
  | succ fuel ih =>
    intro st n hr hInv
    rw [aStarRun] at hr
    cases hstep : aStarStep P st with
    | found m =>
      rw [hstep] at hr
      cases hr
      obtain ⟨rest, hp, hgoal⟩ := step_found_cases hstep
      exact ⟨hInv.pend_reach n (popMin_mem hp), hgoal⟩
    | exhausted =>
      rw [hstep] at hr
      cases hr
    | next st' q =>
      rw [hstep] at hr
      simp only at hr
      exact ih st' n hr (inv_step hstep hInv)

end Invariants

section Termination

variable [DecidableEq σ]



/-- Each `.next` iteration decreases the lexicographic measure
(unrecorded states, best-cost total, frontier length). -/
theorem step_measure {P : Problem σ} {s0 : σ} {g0 : Int} {R : Finset σ}
    {st st' : AState σ} {q : ASNode σ}
    (hR : ∀ n, ReachableNode P s0 g0 n → n.id ∈ R)
    (hg : ∀ n, ReachableNode P s0 g0 n → 0 ≤ n.g)
    (hInv : Inv P s0 g0 st) (hInv' : Inv P s0 g0 st')
    (hst : aStarStep P st = .next st' q) :
    m1 R st'.best < m1 R st.best ∨
    (m1 R st'.best = m1 R st.best ∧ m2 R st'.best < m2 R st.best) ∨
    (st'.best = st.best ∧ st'.pending.length < st.pending.length) := by
  obtain ⟨rest, hp, hgoal, hcase⟩ := step_next_cases hst
  have hlen := popMin_length hp
  rcases hcase with ⟨hv, rfl⟩ | ⟨hv, rfl⟩
  · exact Or.inr (Or.inr ⟨rfl, by simp only; omega⟩)
  · obtain ⟨newly, h1, h2, h3, h4, h5, h6⟩ :=
      considerSucc_fold_spec st.visited (getSuccessors P q) rest st.best
    cases newly with
    | nil =>
      refine Or.inr (Or.inr ⟨h2 rfl, ?_⟩)
      simp only
      rw [h1]
      simp only [List.append_nil]
      omega
    | cons s tl =>
      have hq_reach : ReachableNode P s0 g0 q := hInv.pend_reach q (popMin_mem hp)
      obtain ⟨hss, hsnv, hslt, b, hb, hble⟩ := h3 s (List.mem_cons_self _ _)
      have hs_reach : ReachableNode P s0 g0 s := ReachableNode.step hq_reach hss
      have hsid_R : s.id ∈ R := hR s hs_reach
      have hsub : (R.filter fun x =>
          ((getSuccessors P q).foldl (considerSucc st.visited) (rest, st.best)).2 x = none) ⊆
          (R.filter fun x => st.best x = none) := by
        intro x hx
        rw [Finset.mem_filter] at hx ⊢
        refine ⟨hx.1, ?_⟩
        cases hbx : st.best x with
        | none => rfl
        | some w =>
          obtain ⟨b', hb', _⟩ := h4 x w hbx
          rw [hx.2] at hb'
          cases hb'
      by_cases hfresh : ∃ x ∈ R, st.best x = none ∧
          ((getSuccessors P q).foldl (considerSucc st.visited) (rest, st.best)).2 x ≠ none
      · refine Or.inl ?_
        apply Finset.card_lt_card
        rw [Finset.ssubset_iff_of_subset hsub]
        obtain ⟨x, hxR, hxnone, hxsome⟩ := hfresh
        refine ⟨x, Finset.mem_filter.mpr ⟨hxR, hxnone⟩, ?_⟩
        intro hmem
        exact hxsome (Finset.mem_filter.mp hmem).2
      · push_neg at hfresh
        have hfilter : (R.filter fun x =>
            ((getSuccessors P q).foldl (considerSucc st.visited) (rest, st.best)).2 x = none) =
            (R.filter fun x => st.best x = none) := by
          apply Finset.Subset.antisymm hsub
          intro x hx
          rw [Finset.mem_filter] at hx ⊢
          exact ⟨hx.1, hfresh x hx.1 hx.2⟩
        refine Or.inr (Or.inl ⟨congrArg Finset.card hfilter, ?_⟩)
        apply Finset.sum_lt_sum
        · intro i hi
          cases hbi' : ((getSuccessors P q).foldl (considerSucc st.visited) (rest, st.best)).2 i with
          | none => simp only [hbi']; exact Nat.zero_le _
          | some v =>
            rcases h5 i v hbi' with hsame | ⟨hstrict, _⟩
            · simp only [hbi', hsame]
              exact le_refl _
            · rcases hstrict with hnone | ⟨w, hw, hvw⟩
              · rw [hfresh i hi hnone] at hbi'
                cases hbi'
              · simp only [hbi', hw]
                exact Int.toNat_le_toNat (le_of_lt hvw)
        · refine ⟨s.id, hsid_R, ?_⟩
          cases hbs : st.best s.id with
          | none =>
            rw [hfresh s.id hsid_R hbs] at hb
            cases hb
          | some w =>
            have hltw := hslt w hbs
            obtain ⟨nb, hnb_reach, _, hnb_g, _⟩ := hInv'.best_wit s.id b (by exact hb)
            have hb0 : 0 ≤ b := by rw [← hnb_g]; exact hg nb hnb_reach
            simp only [hb, hbs]
            omega

/-- The main loop of `a_star_search` terminates whenever the reachable
state space is finite and reachable costs are non-negative. -/
theorem run_terminates {P : Problem σ} {s0 : σ} {g0 : Int} {R : Finset σ}
    (hR : ∀ n, ReachableNode P s0 g0 n → n.id ∈ R)
    (hg : ∀ n, ReachableNode P s0 g0 n → 0 ≤ n.g) :
    ∀ (a b c : Nat) (st : AState σ), Inv P s0 g0 st →
      m1 R st.best = a → m2 R st.best = b → st.pending.length = c →
      ∃ fuel r, aStarRun P fuel st = some r := by
  intro a
  induction a using Nat.strong_induction_on with
  | _ a iha =>
    intro b
    induction b using Nat.strong_induction_on with
    | _ b ihb =>
      intro c
      induction c using Nat.strong_induction_on with
      | _ c ihc =>
        intro st hInv h1 h2 h3
        cases hstep : aStarStep P st with
        | found n =>
          refine ⟨1, .found n, ?_⟩
          rw [aStarRun, hstep]
        | exhausted =>
          refine ⟨1, .exhausted, ?_⟩
          rw [aStarRun, hstep]
        | next st' q =>
          have hInv' := inv_step hstep hInv
          rcases step_measure hR hg hInv hInv' hstep with hm | ⟨hmeq, hm2⟩ | ⟨hbeq, hlen⟩
          · obtain ⟨fuel, r, hr⟩ := iha (m1 R st'.best) (by omega) (m2 R st'.best)
              (st'.pending.length) st' hInv' rfl rfl rfl
            refine ⟨fuel + 1, r, ?_⟩
            rw [aStarRun, hstep]
            exact hr
          · obtain ⟨fuel, r, hr⟩ := ihb (m2 R st'.best) (by omega)
              (st'.pending.length) st' hInv' (by omega) rfl rfl
            refine ⟨fuel + 1, r, ?_⟩
            rw [aStarRun, hstep]
            exact hr
          · obtain ⟨fuel, r, hr⟩ := ihc (st'.pending.length) (by omega) st' hInv'
              (by rw [hbeq]; exact h1) (by rw [hbeq]; exact h2) rfl
            refine ⟨fuel + 1, r, ?_⟩
            rw [aStarRun, hstep]
            exact hr

end Termination


section WellFormed

theorem reachable_g_nonneg {P : Problem σ} {s0 : σ} {g0 : Int} (hg0 : 0 ≤ g0)
    (hc : ∀ x, ∀ e ∈ P.edges x, 0 ≤ e.2) :
    ∀ n, ReachableNode P s0 g0 n → 0 ≤ n.g := by
  intro n h
  induction h with
  | refl => exact hg0
  | step hn hs ih =>
    obtain ⟨e, he, rfl⟩ := mem_getSuccessors.mp hs
    have := hc _ e he
    simp only
    omega

theorem reachable_h_eq_heur {P : Problem σ} {s0 : σ} {g0 : Int} :
    ∀ n, ReachableNode P s0 g0 n → n.h = P.heur n.id := by
  intro n h
  induction h with
  | refl => rfl
  | step hn hs ih =>
    obtain ⟨e, he, rfl⟩ := mem_getSuccessors.mp hs
    rfl

theorem reachable_h_nonneg {P : Problem σ} {s0 : σ} {g0 : Int}
    (hh : ∀ x, 0 ≤ P.heur x) :
    ∀ n, ReachableNode P s0 g0 n → 0 ≤ n.h := by
  intro n h
  rw [reachable_h_eq_heur n h]
  exact hh n.id

theorem chainCost_nonneg {P : Problem σ}
    (hc : ∀ y, ∀ e ∈ P.edges y, 0 ≤ e.2) :
    ∀ (l : List (σ × Int)) (x : σ), isChain P x l → 0 ≤ chainCost l := by
  intro l
  induction l with
  | nil => intro x _; simp [chainCost]
  | cons e l' ih =>
    obtain ⟨t, c⟩ := e
    intro x hchain
    obtain ⟨he, hl'⟩ := hchain
    have h1 := hc x (t, c) he
    have h2 := ih t hl'
    rw [chainCost_cons]
    simp only at h1
    omega

/-- A uniformly zero heuristic never overestimates. -/
theorem zero_heur_admissible {P : Problem σ} {s0 : σ} {g0 : Int}
    (hzero : ∀ x, P.heur x = 0)
    (hc : ∀ y, ∀ e ∈ P.edges y, 0 ≤ e.2) :
    ∀ n, ReachableNode P s0 g0 n → ∀ l, isChain P n.id l →
      P.goal (chainEnd n.id l) = true → n.h ≤ chainCost l := by
  intro n hn l hl _
  rw [reachable_h_eq_heur n hn, hzero]
  exact chainCost_nonneg hc l n.id hl

end WellFormed

section MainAStar

variable [DecidableEq σ]

/-- Claim C1 (amended: the reachable state space is additionally assumed
finite): for every start node and goal predicate such that some node
satisfying the predicate is reachable from the start by a finite path, the
set of reachable states is finite, every node's h never overestimates the
true remaining cost, and g, h are non-negative, `a_star_search` returns a
node whose g equals the minimum accumulated cost over all reachable nodes
satisfying the predicate. -/
theorem a_star_search_optimal (P : Problem σ) (s0 : σ) (g0 : Int)
    (hfin : (reachIds P s0 g0).Finite)
    (hg : ∀ n, ReachableNode P s0 g0 n → 0 ≤ n.g)
    (hh : ∀ n, ReachableNode P s0 g0 n → 0 ≤ n.h)
    (hadm : ∀ n, ReachableNode P s0 g0 n → ∀ l, isChain P n.id l →
      P.goal (chainEnd n.id l) = true → n.h ≤ chainCost l)
    (hex : ∃ n, ReachableNode P s0 g0 n ∧ P.goal n.id = true) :
    ∃ fuel n, aStarSearch P s0 g0 fuel = some (.found n) ∧
      ReachableNode P s0 g0 n ∧ P.goal n.id = true ∧
      ∀ m, ReachableNode P s0 g0 m → P.goal m.id = true → n.g ≤ m.g := by
  classical
  obtain ⟨m0, hm0_reach, hm0_goal⟩ := hex
  have hbdd : ∃ b : Int, ∀ z : Int,
      (∃ m, ReachableNode P s0 g0 m ∧ P.goal m.id = true ∧ m.g = z) → b ≤ z := by
    refine ⟨0, ?_⟩
    rintro z ⟨m, hm, _, rfl⟩
    exact hg m hm
  have hinh : ∃ z : Int, ∃ m, ReachableNode P s0 g0 m ∧ P.goal m.id = true ∧ m.g = z :=
    ⟨m0.g, m0, hm0_reach, hm0_goal, rfl⟩
  obtain ⟨gstar, hPg, hleast⟩ := Int.exists_least_of_bdd hbdd hinh
  obtain ⟨mstar, hmstar_reach, hmstar_goal, hmstar_g⟩ := hPg
  -- the optimality witness holds at the initial state
  obtain ⟨l, hchain, hend, hgl⟩ := reachableNode_chain hmstar_reach
  have hOpt0 : OptInv P gstar (initState P s0 g0) := by
    refine ⟨startNode P s0 g0, ?_, l, hchain, ?_, ?_⟩
    · simp [initState]
    · show P.goal (chainEnd s0 l) = true
      rw [hend]
      exact hmstar_goal
    · show g0 + chainCost l ≤ gstar
      omega
  -- termination
  have hR : ∀ n, ReachableNode P s0 g0 n → n.id ∈ hfin.toFinset := by
    intro n hn
    rw [Set.Finite.mem_toFinset]
    exact ⟨n, hn, rfl⟩
  obtain ⟨fuel, r, hr⟩ := run_terminates hR hg
    (m1 hfin.toFinset (initState P s0 g0).best)
    (m2 hfin.toFinset (initState P s0 g0).best)
    (initState P s0 g0).pending.length
    (initState P s0 g0) (inv_init P s0 g0) rfl rfl rfl
  obtain ⟨n, rfl, hng, hnreach, hnle⟩ :=
    run_inv_found hadm hh fuel (initState P s0 g0) r hr (inv_init P s0 g0) hOpt0
  refine ⟨fuel, n, hr, hnreach, hng, ?_⟩
  intro m hm hgm
  have := hleast m.g ⟨m, hm, hgm, rfl⟩
  omega

/-- Claim C3: for every start node and goal predicate such that no reachable
node satisfies the predicate, with the reachable state space finite (and the
data model's non-negative costs), `a_star_search` terminates by raising the
distinct search-exhausted error, never returning a node. -/
theorem a_star_search_exhausts (P : Problem σ) (s0 : σ) (g0 : Int)
    (hfin : (reachIds P s0 g0).Finite)
    (hg : ∀ n, ReachableNode P s0 g0 n → 0 ≤ n.g)
    (hnogoal : ∀ n, ReachableNode P s0 g0 n → P.goal n.id = false) :
    ∃ fuel, aStarSearch P s0 g0 fuel = some .exhausted := by
  have hR : ∀ n, ReachableNode P s0 g0 n → n.id ∈ hfin.toFinset := by
    intro n hn
    rw [Set.Finite.mem_toFinset]
    exact ⟨n, hn, rfl⟩
  obtain ⟨fuel, r, hr⟩ := run_terminates hR hg
    (m1 hfin.toFinset (initState P s0 g0).best)
    (m2 hfin.toFinset (initState P s0 g0).best)
    (initState P s0 g0).pending.length
    (initState P s0 g0) (inv_init P s0 g0) rfl rfl rfl
  cases r with
  | exhausted => exact ⟨fuel, hr⟩
  | found n =>
    exfalso
    obtain ⟨hreach, hgoal⟩ := run_found_reach fuel (initState P s0 g0) n hr (inv_init P s0 g0)
    rw [hnogoal n hreach] at hgoal
    cases hgoal

end MainAStar

section ConcreteInstances



/-- Witness for the amended claim C1 at a concrete two-state instance. -/
theorem a_star_search_optimal_witness :
    ∃ fuel n, aStarSearch exP1 0 0 fuel = some (.found n) ∧
      ReachableNode exP1 0 0 n ∧ exP1.goal n.id = true ∧
      ∀ m, ReachableNode exP1 0 0 m → exP1.goal m.id = true → n.g ≤ m.g :=
  a_star_search_optimal exP1 0 0 (Set.toFinite _)
    (reachable_g_nonneg (by decide) (by decide))
    (reachable_h_nonneg (by decide))
    (zero_heur_admissible (by decide) (by decide))
    ⟨⟨1, 3, 0⟩, ReachableNode.step ReachableNode.refl (by decide), by decide⟩

/-- Witness for claim C3 at a concrete instance with unreachable goal. -/
theorem a_star_search_exhausts_witness :
    ∃ fuel, aStarSearch exP3 0 0 fuel = some .exhausted :=
  a_star_search_exhausts exP3 0 0 (Set.toFinite _)
    (reachable_g_nonneg (by decide) (by decide))
    (fun _ _ => rfl)

end ConcreteInstances

section InfiniteCounterexample


theorem cex_step {k : Nat} {st : AState Nat} (h : CexGood k st) :
    ∃ st', aStarStep cexP st = .next st' (cnode k) ∧ CexGood (k + 1) st' := by
  have hpop : popMin st.pending = some (cnode k, [gnode]) := by
    rw [h.pending_eq]
    norm_num [popMin, f, gnode, cnode]
  have hgoal : cexP.goal (cnode k).id = false := by
    show ((2 * k + 1 : Nat) == 1000) = false
    rw [beq_eq_false_iff_ne]
    omega
  have hnvis : cnode k ∉ st.visited := by
    intro hmem
    have := h.visited_lt _ hmem
    simp only [cnode] at this
    omega
  have hnvis2 : cnode (k + 1) ∉ st.visited := by
    intro hmem
    have := h.visited_lt _ hmem
    simp only [cnode] at this
    omega
  have hsucc : getSuccessors cexP (cnode k) = [cnode (k + 1)] := by
    have hedge : cexP.edges (cnode k).id = [(2 * (k + 1) + 1, 0)] := by
      show cexEdges (2 * k + 1) = _
      unfold cexEdges
      rw [if_neg (by omega), if_pos (by omega)]
      have h213 : 2 * k + 1 + 2 = 2 * (k + 1) + 1 := by omega
      rw [h213]
    unfold getSuccessors
    rw [hedge]
    simp only [List.map_cons, List.map_nil, cnode]
    norm_num [cexP]
  have hbestnone : st.best (cnode (k + 1)).id = none := by
    apply h.best_none
    · simp only [cnode]; omega
    · simp only [cnode]; omega
  have hfold : (getSuccessors cexP (cnode k)).foldl (considerSucc st.visited)
      ([gnode], st.best) =
      ([gnode, cnode (k + 1)],
        updateBest st.best (cnode (k + 1)).id (cnode (k + 1)).g) := by
    rw [hsucc]
    simp only [List.foldl_cons, List.foldl_nil]
    rw [considerSucc_of_push_none hnvis2 hbestnone]
    rfl
  refine ⟨⟨[gnode, cnode (k + 1)], cnode k :: st.visited,
      updateBest st.best (cnode (k + 1)).id (cnode (k + 1)).g⟩, ?_, ?_⟩
  · unfold aStarStep
    rw [hpop]
    simp only [hgoal, Bool.false_eq_true, if_false]
    rw [if_neg hnvis]
    rw [hfold]
  · constructor
    · rfl
    · intro v hv
      rcases List.mem_cons.mp hv with rfl | hv
      · simp only [cnode]; omega
      · have := h.visited_lt _ hv
        omega
    · intro x hx hne
      have hxne : x ≠ (cnode (k + 1)).id := by
        simp only [cnode]
        omega
      show updateBest st.best (cnode (k + 1)).id (cnode (k + 1)).g x = none
      rw [updateBest_other _ _ _ hxne]
      exact h.best_none x (by omega) hne

theorem cex_init_step :
    ∃ st', aStarStep cexP (initState cexP 0 0) = .next st' (startNode cexP 0 0) ∧
      CexGood 0 st' := by
  refine ⟨⟨[gnode, cnode 0], [startNode cexP 0 0],
      updateBest (updateBest (updateBest (fun _ => none) 0 0) 1000 1) 1 0⟩,
      ?_, ?_, ?_, ?_⟩
  · rfl
  · rfl
  · intro v hv
    rcases List.mem_singleton.mp hv with rfl
    decide
  · intro x hx hne
    show updateBest (updateBest (updateBest (fun _ => none) 0 0) 1000 1) 1 0 x = none
    rw [updateBest_other _ _ _ (by omega), updateBest_other _ _ _ hne,
      updateBest_other _ _ _ (by omega)]

theorem cex_run_none : ∀ (fuel k : Nat) (st : AState Nat),
    CexGood k st → aStarRun cexP fuel st = none := by
  intro fuel
  induction fuel with
  | zero => intro k st _; rfl
  | succ fuel ih =>
    intro k st h
    obtain ⟨st', hstep, hgood'⟩ := cex_step h
    rw [aStarRun, hstep]
    exact ih (k + 1) st' hgood'

/-- Claim C1 as stated is false: on the infinite-chain instance every
hypothesis of the claim holds (a goal node is reachable by a finite path,
g and h are non-negative, and h never overestimates the remaining cost),
yet `a_star_search` never returns: the infinitely many f-0 chain nodes are
always popped before the f-1 goal node.  The claim needs the reachable
state space to be finite. -/
theorem c1_counterexample :
    (∃ n, ReachableNode cexP 0 0 n ∧ cexP.goal n.id = true) ∧
    (∀ n, ReachableNode cexP 0 0 n → 0 ≤ n.g) ∧
    (∀ n, ReachableNode cexP 0 0 n → 0 ≤ n.h) ∧
    (∀ n, ReachableNode cexP 0 0 n → ∀ l, isChain cexP n.id l →
      cexP.goal (chainEnd n.id l) = true → n.h ≤ chainCost l) ∧
    (∀ fuel, aStarSearch cexP 0 0 fuel = none) := by
  have hc : ∀ y, ∀ e ∈ cexP.edges y, 0 ≤ e.2 := by
    intro y e he
    show (0 : Int) ≤ e.2
    simp only [cexP, cexEdges] at he
    by_cases h0 : y = 0
    · rw [if_pos h0] at he
      rcases List.mem_cons.mp he with rfl | he
      · decide
      · rcases List.mem_singleton.mp he with rfl
        decide
    · rw [if_neg h0] at he
      by_cases h1 : y % 2 = 1
      · rw [if_pos h1] at he
        rcases List.mem_singleton.mp he with rfl
        exact le_refl 0
      · rw [if_neg h1] at he
        cases he
  refine ⟨⟨⟨1000, 1, 0⟩, ReachableNode.step ReachableNode.refl ?_, by decide⟩,
    reachable_g_nonneg (by omega) hc,
    reachable_h_nonneg (fun _ => le_refl 0),
    zero_heur_admissible (fun _ => rfl) hc, ?_⟩
  · show (⟨1000, 1, 0⟩ : ASNode Nat) ∈ getSuccessors cexP (startNode cexP 0 0)
    decide
  · intro fuel
    cases fuel with
    | zero => rfl
    | succ fuel =>
      obtain ⟨st1, hstep, hgood⟩ := cex_init_step
      show aStarRun cexP (fuel + 1) (initState cexP 0 0) = none
      rw [aStarRun, hstep]
      exact cex_run_none fuel 0 st1 hgood

end InfiniteCounterexample

section StepClaims

variable [DecidableEq σ]

/-- Claim C6: the goal test comes before the already-visited check: a
popped node satisfying the goal predicate is returned immediately, whatever
the visited set contains (in particular even when its id, or the node
itself, is already in the visited set). -/
theorem goal_checked_before_visited {P : Problem σ} {st : AState σ}
    {q : ASNode σ} {rest : List (ASNode σ)}
    (hpop : popMin st.pending = some (q, rest)) (hgoal : P.goal q.id = true) :
    aStarStep P st = .found q := by
  unfold aStarStep
  rw [hpop]
  simp only [hgoal, if_true]

/-- Claim C5: same-id nodes are identified by the best-cost bookkeeping:
a successor is skipped whenever its g is not strictly below the best cost
recorded for its id (a missing record acts as positive infinity and never
causes a cost skip), and a pushed successor strictly improves and records
its g as the new best cost for its id, so the lower-g node for an id wins. -/
theorem successor_skip_rule (visited pend : List (ASNode σ))
    (best : σ → Option Int) (s : ASNode σ) :
    (∀ b, best s.id = some b → b ≤ s.g →
      considerSucc visited (pend, best) s = (pend, best)) ∧
    (s ∉ visited → best s.id = none →
      considerSucc visited (pend, best) s =
        (pend ++ [s], updateBest best s.id s.g)) ∧
    (∀ b, s ∉ visited → best s.id = some b → s.g < b →
      considerSucc visited (pend, best) s =
        (pend ++ [s], updateBest best s.id s.g)) := by
  refine ⟨?_, ?_, ?_⟩
  · intro b hb hle
    by_cases hv : s ∈ visited
    · exact considerSucc_of_visited hv
    · exact considerSucc_of_skip hv hb hle
  · intro hv hb
    exact considerSucc_of_push_none hv hb
  · intro b hv hb hlt
    exact considerSucc_of_push_some hv hb hlt

/-- Claim C10: across one loop iteration the best-cost record for an id
changes only by strictly decreasing (a fresh record is allowed), and every
node pushed onto the frontier has g strictly below the best cost previously
recorded for its id. -/
theorem best_costs_decrease {P : Problem σ} {st st' : AState σ} {q : ASNode σ}
    (hst : aStarStep P st = .next st' q) :
    (∀ x v, st'.best x = some v →
      st.best x = some v ∨ st.best x = none ∨ ∃ w, st.best x = some w ∧ v < w) ∧
    (∃ rest pushed, popMin st.pending = some (q, rest) ∧
      st'.pending = rest ++ pushed ∧
      ∀ s ∈ pushed, ∀ w, st.best s.id = some w → s.g < w) := by
  obtain ⟨rest, hp, hgoal, hcase⟩ := step_next_cases hst
  rcases hcase with ⟨hv, rfl⟩ | ⟨hv, rfl⟩
  · refine ⟨fun x v hxv => Or.inl hxv, rest, [], hp, by simp, ?_⟩
    intro s hs
    cases hs
  · obtain ⟨newly, h1, h2, h3, h4, h5, h6⟩ :=
      considerSucc_fold_spec st.visited (getSuccessors P q) rest st.best
    refine ⟨?_, rest, newly, hp, h1, ?_⟩
    · intro x v hxv
      rcases h5 x v hxv with hsame | ⟨hstrict, _⟩
      · exact Or.inl hsame
      · exact Or.inr hstrict
    · intro s hs w hw
      exact (h3 s hs).2.2.1 w hw

end StepClaims

section TraceClaims

variable [DecidableEq σ]

/-- With a consistent heuristic, pops never decrease in f: every node in
the pop trace respects the lower bound of the frontier it was popped from,
and traces are sorted by f. -/
theorem trace_sorted_aux (P : Problem σ)
    (hcons : ∀ x, ∀ e ∈ P.edges x, P.heur x ≤ e.2 + P.heur e.1) :
    ∀ (fuel : Nat) (st : AState σ) (L : Int),
      (∀ p ∈ st.pending, L ≤ f p) →
      (∀ p ∈ st.pending, p.h = P.heur p.id) →
      ((aStarTrace P fuel st).map f).Sorted (· ≤ ·) ∧
      (∀ y ∈ aStarTrace P fuel st, L ≤ f y) := by
  intro fuel
  induction fuel with
  | zero =>
    intro st L _ _
    exact ⟨List.sorted_nil, by intro y hy; cases hy⟩
  | succ fuel ih =>
    intro st L hL hH
    rw [aStarTrace]
    cases hstep : aStarStep P st with
    | found n =>
      obtain ⟨rest, hp, _⟩ := step_found_cases hstep
      refine ⟨List.sorted_singleton _, ?_⟩
      intro y hy
      rcases List.mem_singleton.mp hy with rfl
      exact hL y (popMin_mem hp)
    | exhausted =>
      exact ⟨List.sorted_nil, by intro y hy; cases hy⟩
    | next st' q =>
      obtain ⟨rest, hp, hgoal, hcase⟩ := step_next_cases hstep
      have hqL : L ≤ f q := hL q (popMin_mem hp)
      have hqmin : ∀ x ∈ st.pending, f q ≤ f x := popMin_min hp
      have hbound : ∀ p ∈ st'.pending, f q ≤ f p := by
        rcases hcase with ⟨hv, rfl⟩ | ⟨hv, rfl⟩
        · intro p hpr
          exact hqmin p (popMin_rest_subset hp p hpr)
        · obtain ⟨newly, h1, _, h3, _, _, _⟩ :=
            considerSucc_fold_spec st.visited (getSuccessors P q) rest st.best
          intro p hpr
          simp only at hpr
          rw [h1] at hpr
          rcases List.mem_append.mp hpr with hpr | hpr
          · exact hqmin p (popMin_rest_subset hp p hpr)
          · obtain ⟨e, he, rfl⟩ := mem_getSuccessors.mp (h3 p hpr).1
            have hch : P.heur q.id ≤ e.2 + P.heur e.1 := hcons q.id e he
            have hqh : q.h = P.heur q.id := hH q (popMin_mem hp)
            unfold f
            simp only
            omega
      have hkeep : ∀ p ∈ st'.pending, p.h = P.heur p.id := by
        rcases hcase with ⟨hv, rfl⟩ | ⟨hv, rfl⟩
        · intro p hpr
          exact hH p (popMin_rest_subset hp p hpr)
        · obtain ⟨newly, h1, _, h3, _, _, _⟩ :=
            considerSucc_fold_spec st.visited (getSuccessors P q) rest st.best
          intro p hpr
          simp only at hpr
          rw [h1] at hpr
          rcases List.mem_append.mp hpr with hpr | hpr
          · exact hH p (popMin_rest_subset hp p hpr)
          · obtain ⟨e, he, rfl⟩ := mem_getSuccessors.mp (h3 p hpr).1
            rfl
      obtain ⟨hsorted, hge⟩ := ih st' (f q) hbound hkeep
      refine ⟨?_, ?_⟩
      · rw [List.map_cons, List.sorted_cons]
        refine ⟨?_, hsorted⟩
        intro b hb
        obtain ⟨y, hy, rfl⟩ := List.mem_map.mp hb
        exact hge y hy
      · intro y hy
        rcases List.mem_cons.mp hy with rfl | hy
        · exact hqL
        · have := hge y hy
          omega

/-- A run that returns a node returns the first popped node satisfying the
goal predicate. -/
theorem run_returns_first_goal (P : Problem σ) :
    ∀ (fuel : Nat) (st : AState σ) (n : ASNode σ),
      aStarRun P fuel st = some (.found n) →
      (aStarTrace P fuel st).find? (fun m => P.goal m.id) = some n := by
  intro fuel
  induction fuel with
  | zero => intro st n hr; cases hr
  | succ fuel ih =>
    intro st n hr
    rw [aStarRun] at hr
    rw [aStarTrace]
    cases hstep : aStarStep P st with
    | found m =>
      rw [hstep] at hr
      cases hr
      obtain ⟨rest, hp, hgoal⟩ := step_found_cases hstep
      simp [List.find?, hgoal]
    | exhausted =>
      rw [hstep] at hr
      cases hr
    | next st' q =>
      rw [hstep] at hr
      simp only at hr
      obtain ⟨rest, hp, hgoal, _⟩ := step_next_cases hstep
      have := ih st' n hr
      simp [List.find?, hgoal, this]

/-- Claim C7 (amended): when the heuristic is consistent along edges, the
nodes are popped from the frontier in non-decreasing f order (f = g + h);
unconditionally, the node returned is the first popped node satisfying the
goal predicate. -/
theorem pop_order (P : Problem σ) (s0 : σ) (g0 : Int) (fuel : Nat) :
    ((∀ x, ∀ e ∈ P.edges x, P.heur x ≤ e.2 + P.heur e.1) →
      ((aStarTrace P fuel (initState P s0 g0)).map f).Sorted (· ≤ ·)) ∧
    (∀ n, aStarRun P fuel (initState P s0 g0) = some (.found n) →
      (aStarTrace P fuel (initState P s0 g0)).find? (fun m => P.goal m.id) =
        some n) := by
  constructor
  · intro hcons
    refine (trace_sorted_aux P hcons fuel (initState P s0 g0) (f (startNode P s0 g0)) ?_ ?_).1
    · intro p hp
      simp only [initState] at hp
      rcases List.mem_singleton.mp hp with rfl
      exact le_refl _
    · intro p hp
      simp only [initState] at hp
      rcases List.mem_singleton.mp hp with rfl
      rfl
  · intro n hr
    exact run_returns_first_goal P fuel (initState P s0 g0) n hr

end TraceClaims

section C7Counterexample


theorem ex7_dlow : ∀ (l : List (Fin 3 × Int)) (x : Fin 3), isChain exP7 x l →
    exP7.goal (chainEnd x l) = true → dlow x ≤ chainCost l := by
  intro l
  induction l with
  | nil =>
    intro x _ hgoal
    simp only [chainEnd] at hgoal
    have hx : x = 2 := by
      have h2 := hgoal
      simp only [exP7] at h2
      exact beq_iff_eq.mp h2
    subst hx
    simp [dlow, chainCost]
  | cons e l' ih =>
    obtain ⟨t, c⟩ := e
    intro x hchain hgoal
    obtain ⟨he, hl'⟩ := hchain
    simp only [chainEnd] at hgoal
    have hrec := ih t hl' hgoal
    rw [chainCost_cons]
    fin_cases x
    · have htc : ((t, c) : Fin 3 × Int) = (1, 1) := by
        simp only [exP7] at he
        rw [if_pos (by decide)] at he
        exact List.mem_singleton.mp he
      rw [Prod.mk.injEq] at htc
      obtain ⟨rfl, rfl⟩ := htc
      simp only [dlow] at hrec ⊢
      norm_num at hrec ⊢
      omega
    · have htc : ((t, c) : Fin 3 × Int) = (2, 1) := by
        simp only [exP7] at he
        rw [if_neg (by decide), if_pos (by decide)] at he
        exact List.mem_singleton.mp he
      rw [Prod.mk.injEq] at htc
      obtain ⟨rfl, rfl⟩ := htc
      simp only [dlow] at hrec ⊢
      norm_num at hrec ⊢
      omega
    · exfalso
      simp only [exP7] at he
      rw [if_neg (by decide), if_neg (by decide)] at he
      cases he

/-- The heuristic of `exP7` never overestimates the remaining cost. -/
theorem ex7_adm : ∀ n, ReachableNode exP7 0 0 n → ∀ l, isChain exP7 n.id l →
    exP7.goal (chainEnd n.id l) = true → n.h ≤ chainCost l := by
  intro n hn l hl hg
  have h1 := ex7_dlow l n.id hl hg
  have h2 : n.h = exP7.heur n.id := reachable_h_eq_heur n hn
  have h3 : ∀ x : Fin 3, exP7.heur x ≤ dlow x := by decide
  have h4 := h3 n.id
  omega

/-- Claim C7 as stated is false: on `exP7` (whose heuristic is admissible
and non-negative, with non-negative costs) the pop trace has f values
2, 1, 2 — not non-decreasing.  Consistency of the heuristic, not mere
admissibility, is what forces monotone pops. -/
theorem c7_counterexample :
    (∀ n, ReachableNode exP7 0 0 n → 0 ≤ n.g) ∧
    (∀ n, ReachableNode exP7 0 0 n → 0 ≤ n.h) ∧
    (∀ n, ReachableNode exP7 0 0 n → ∀ l, isChain exP7 n.id l →
      exP7.goal (chainEnd n.id l) = true → n.h ≤ chainCost l) ∧
    ¬ ((aStarTrace exP7 3 (initState exP7 0 0)).map f).Sorted (· ≤ ·) := by
  refine ⟨reachable_g_nonneg (by decide) (by decide),
    reachable_h_nonneg (by decide), ex7_adm, ?_⟩
  decide

end C7Counterexample

section StepWitnesses

/-- Witness for claim C5 at concrete inputs: a successor with g 7 is
skipped against a recorded best of 5, pushed against an absent record, and
pushed (recording 7) against a recorded best of 9. -/
theorem successor_skip_rule_witness :
    considerSucc ([] : List (ASNode (Fin 1))) ([], updateBest (fun _ => none) 0 5)
        ⟨0, 7, 0⟩ = ([], updateBest (fun _ => none) 0 5) ∧
    considerSucc ([] : List (ASNode (Fin 1))) ([], fun _ => none) ⟨0, 7, 0⟩ =
      ([(⟨0, 7, 0⟩ : ASNode (Fin 1))], updateBest (fun _ => none) 0 7) ∧
    considerSucc ([] : List (ASNode (Fin 1))) ([], updateBest (fun _ => none) 0 9)
        ⟨0, 7, 0⟩ =
      ([(⟨0, 7, 0⟩ : ASNode (Fin 1))], updateBest (updateBest (fun _ => none) 0 9) 0 7) :=
  ⟨(successor_skip_rule _ _ _ _).1 5 (by decide) (by decide),
   (successor_skip_rule _ _ _ _).2.1 (by decide) (by decide),
   (successor_skip_rule _ _ _ _).2.2 9 (by decide) (by decide) (by decide)⟩

/-- Witness for claim C6: the popped node ⟨1, 5, 0⟩ satisfies the goal and
is returned at once even though the visited set already holds a node with
the same id 1. -/
theorem goal_checked_before_visited_witness :
    popMin [(⟨1, 5, 0⟩ : ASNode (Fin 2))] = some (⟨1, 5, 0⟩, []) ∧
    exP1.goal (⟨1, 5, 0⟩ : ASNode (Fin 2)).id = true ∧
    ((⟨1, 3, 0⟩ : ASNode (Fin 2)).id = (⟨1, 5, 0⟩ : ASNode (Fin 2)).id ∧
      (⟨1, 3, 0⟩ : ASNode (Fin 2)) ∈
        (⟨[⟨1, 5, 0⟩], [⟨1, 3, 0⟩], fun _ => none⟩ : AState (Fin 2)).visited) ∧
    aStarStep exP1 ⟨[⟨1, 5, 0⟩], [⟨1, 3, 0⟩], fun _ => none⟩ = .found ⟨1, 5, 0⟩ :=
  ⟨by decide, by decide, ⟨by decide, by decide⟩,
   goal_checked_before_visited
     (show popMin [(⟨1, 5, 0⟩ : ASNode (Fin 2))] = some (⟨1, 5, 0⟩, []) by decide)
     (by decide)⟩

/-- Witness for claim C10 at the first expansion of the `exP1` search. -/
theorem best_costs_decrease_witness :
    (∀ x v, (⟨[(⟨1, 3, 0⟩ : ASNode (Fin 2))], [⟨0, 0, 0⟩],
        updateBest (updateBest (fun _ => none) 0 0) 1 3⟩ : AState (Fin 2)).best x =
        some v →
      (initState exP1 0 0).best x = some v ∨ (initState exP1 0 0).best x = none ∨
        ∃ w, (initState exP1 0 0).best x = some w ∧ v < w) ∧
    (∃ rest pushed,
      popMin (initState exP1 0 0).pending = some (startNode exP1 0 0, rest) ∧
      (⟨[(⟨1, 3, 0⟩ : ASNode (Fin 2))], [⟨0, 0, 0⟩],
        updateBest (updateBest (fun _ => none) 0 0) 1 3⟩ : AState (Fin 2)).pending =
        rest ++ pushed ∧
      ∀ s ∈ pushed, ∀ w, (initState exP1 0 0).best s.id = some w → s.g < w) :=
  best_costs_decrease (show aStarStep exP1 (initState exP1 0 0) =
    .next ⟨[⟨1, 3, 0⟩], [⟨0, 0, 0⟩],
      updateBest (updateBest (fun _ => none) 0 0) 1 3⟩ (startNode exP1 0 0) from rfl)

/-- Witness for the amended claim C7 on the consistent zero heuristic of
`exP1`: the pop trace is sorted by f and the returned node is the first
popped goal node. -/
theorem pop_order_witness :
    ((aStarTrace exP1 2 (initState exP1 0 0)).map f).Sorted (· ≤ ·) ∧
    (aStarTrace exP1 2 (initState exP1 0 0)).find? (fun m => exP1.goal m.id) =
      some ⟨1, 3, 0⟩ :=
  ⟨(pop_order exP1 0 0 2).1 (by decide), (pop_order exP1 0 0 2).2 ⟨1, 3, 0⟩ (by decide)⟩

end StepWitnesses

end AStar







namespace FullSearch

variable {ν : Type} [DecidableEq ν]


theorem getLast?_decomp {l : List ν} {q : ν} (h : l.getLast? = some q) :
    l = l.dropLast ++ [q] := by
  cases l with
  | nil => cases h
  | cons a tl =>
    have hne : a :: tl ≠ [] := by simp
    rw [List.getLast?_eq_getLast _ hne] at h
    cases h
    exact (List.dropLast_append_getLast hne).symm

theorem getLast?_mem_self {l : List ν} {q : ν} (h : l.getLast? = some q) :
    q ∈ l := by
  rw [getLast?_decomp h]
  exact List.mem_append.mpr (Or.inr (List.mem_singleton.mpr rfl))

theorem fs_step_inv {succ : ν → List ν} {start : ν} {p : List ν}
    {v : Finset ν} {q : ν} (hlast : p.getLast? = some q)
    (hInv : InvFS succ start p v) :
    InvFS succ start (p.dropLast ++ (succ q).filter (fun s => decide (s ∉ v))) (insert q v) := by
  obtain ⟨hpr, hvr, hst, hcl⟩ := hInv
  have hq : q ∈ p := getLast?_mem_self hlast
  have hqr : Reach succ start q := hpr q hq
  refine ⟨?_, ?_, ?_, ?_⟩
  · intro x hx
    rcases List.mem_append.mp hx with hx | hx
    · exact hpr x (by rw [getLast?_decomp hlast]; exact List.mem_append.mpr (Or.inl hx))
    · rw [List.mem_filter, decide_eq_true_eq] at hx
      exact Relation.ReflTransGen.tail hqr hx.1
  · intro x hx
    rcases Finset.mem_insert.mp hx with rfl | hx
    · exact hqr
    · exact hvr x hx
  · rcases hst with hsp | hsv
    · rw [getLast?_decomp hlast] at hsp
      rcases List.mem_append.mp hsp with hsp | hsp
      · exact Or.inl (List.mem_append.mpr (Or.inl hsp))
      · rcases List.mem_singleton.mp hsp with rfl
        exact Or.inr (Finset.mem_insert_self _ _)
    · exact Or.inr (Finset.mem_insert_of_mem hsv)
  · intro x hx s hs
    rcases Finset.mem_insert.mp hx with rfl | hx
    · by_cases hsv : s ∈ v
      · exact Or.inl (Finset.mem_insert_of_mem hsv)
      · refine Or.inr (List.mem_append.mpr (Or.inr ?_))
        rw [List.mem_filter, decide_eq_true_eq]
        exact ⟨hs, hsv⟩
    · rcases hcl x hx s hs with hsv | hsp
      · exact Or.inl (Finset.mem_insert_of_mem hsv)
      · rw [getLast?_decomp hlast] at hsp
        rcases List.mem_append.mp hsp with hsp | hsp
        · exact Or.inr (List.mem_append.mpr (Or.inl hsp))
        · rcases List.mem_singleton.mp hsp with rfl
          exact Or.inl (Finset.mem_insert_self _ _)

/-- If the loop completes, the returned set is exactly the reachable set. -/
theorem fs_go_correct {succ : ν → List ν} {start : ν} :
    ∀ (fuel : Nat) (p : List ν) (v : Finset ν) (r : Finset ν),
      fullSearchGo succ fuel p v = some r → InvFS succ start p v →
      (∀ x ∈ r, Reach succ start x) ∧ (∀ x, Reach succ start x → x ∈ r) := by
  intro fuel
  induction fuel with
  | zero => intro p v r hr; cases hr
  | succ fuel ih =>
    intro p v r hr hInv
    rw [fullSearchGo] at hr
    cases hlast : p.getLast? with
    | none =>
      rw [hlast] at hr
      simp only at hr
      cases hr
      obtain ⟨hpr, hvr, hst, hcl⟩ := hInv
      have hpnil : p = [] := by
        cases hp : p with
        | nil => rfl
        | cons a tl =>
          exfalso
          rw [hp, List.getLast?_eq_getLast _ (by simp)] at hlast
          cases hlast
      subst hpnil
      refine ⟨hvr, ?_⟩
      intro x hx
      induction hx with
      | refl =>
        rcases hst with hsp | hsv
        · cases hsp
        · exact hsv
      | tail hxy hyz ih2 =>
        rcases hcl _ ih2 _ hyz with hcase | hcase
        · exact hcase
        · cases hcase
    | some q =>
      rw [hlast] at hr
      simp only at hr
      exact ih _ _ r hr (fs_step_inv hlast hInv)

/-- The loop terminates when the reachable set is finite: each pop either
shrinks pending, grows visited, or pushes unvisited successors whose last
one — popped next, in LIFO order — grows visited. -/
theorem fs_terminates {succ : ν → List ν} {start : ν} {R : Finset ν}
    (hR : ∀ x, Reach succ start x → x ∈ R) :
    ∀ (k : Nat) (v : Finset ν), R.card - v.card ≤ k →
    ∀ (c : Nat) (p : List ν), p.length ≤ c →
      (∀ x ∈ p, Reach succ start x) → (∀ x ∈ v, Reach succ start x) →
      ∃ fuel r, fullSearchGo succ fuel p v = some r := by
  intro k
  induction k with
  | zero =>
    intro v hk c
    induction c with
    | zero =>
      intro p hp _ _
      have hpnil : p = [] := List.length_eq_zero.mp (Nat.le_zero.mp hp)
      subst hpnil
      exact ⟨1, v, rfl⟩
    | succ c ihc =>
      intro p hp hpr hvr
      cases hlast : p.getLast? with
      | none =>
        refine ⟨1, v, ?_⟩
        rw [fullSearchGo, hlast]
      | some q =>
        have hq : q ∈ p := getLast?_mem_self hlast
        have hqr : Reach succ start q := hpr q hq
        have hvR : v ⊆ R := fun x hx => hR x (hvr x hx)
        have hveq : v = R := Finset.eq_of_subset_of_card_le hvR (by omega)
        have hdiff : (succ q).filter (fun s => decide (s ∉ v)) = [] := by
          rw [List.filter_eq_nil_iff]
          intro s hs
          rw [decide_eq_true_eq, not_not]
          rw [hveq]
          exact hR s (Relation.ReflTransGen.tail hqr hs)
        have hqv : q ∈ v := by
          rw [hveq]
          exact hR q hqr
        have hdroplen : p.dropLast.length ≤ c := by
          have hlen : p.length = p.dropLast.length + 1 := by
            conv_lhs => rw [getLast?_decomp hlast]
            simp
          omega
        have hdropr : ∀ x ∈ p.dropLast, Reach succ start x := fun x hx =>
          hpr x (by rw [getLast?_decomp hlast]; exact List.mem_append.mpr (Or.inl hx))
        obtain ⟨fuel, r, hr⟩ := ihc p.dropLast hdroplen hdropr hvr
        refine ⟨fuel + 1, r, ?_⟩
        rw [fullSearchGo, hlast]
        simp only
        rw [hdiff, List.append_nil, Finset.insert_eq_self.mpr hqv]
        exact hr
  | succ k ihk =>
    intro v hk c
    induction c with
    | zero =>
      intro p hp _ _
      have hpnil : p = [] := List.length_eq_zero.mp (Nat.le_zero.mp hp)
      subst hpnil
      exact ⟨1, v, rfl⟩
    | succ c ihc =>
      intro p hp hpr hvr
      cases hlast : p.getLast? with
      | none =>
        refine ⟨1, v, ?_⟩
        rw [fullSearchGo, hlast]
      | some q =>
        have hq : q ∈ p := getLast?_mem_self hlast
        have hqr : Reach succ start q := hpr q hq
        have hvR : v ⊆ R := fun x hx => hR x (hvr x hx)
        have hdroplen : p.dropLast.length ≤ c := by
          have hlen : p.length = p.dropLast.length + 1 := by
            conv_lhs => rw [getLast?_decomp hlast]
            simp
          omega
        have hdropr : ∀ x ∈ p.dropLast, Reach succ start x := fun x hx =>
          hpr x (by rw [getLast?_decomp hlast]; exact List.mem_append.mpr (Or.inl hx))
        have hsuccr : ∀ x ∈ (succ q).filter (fun s => decide (s ∉ v)), Reach succ start x := by
          intro x hx
          rw [List.mem_filter, decide_eq_true_eq] at hx
          exact Relation.ReflTransGen.tail hqr hx.1
        by_cases hqv : q ∈ v
        · have hins : insert q v = v := Finset.insert_eq_self.mpr hqv
          cases hN : (succ q).filter (fun s => decide (s ∉ v)) with
          | nil =>
            obtain ⟨fuel, r, hr⟩ := ihc p.dropLast hdroplen hdropr hvr
            refine ⟨fuel + 1, r, ?_⟩
            rw [fullSearchGo, hlast]
            simp only
            rw [hN, List.append_nil, hins]
            exact hr
          | cons n0 ntl =>
            have hNne : (succ q).filter (fun s => decide (s ∉ v)) ≠ [] := by
              rw [hN]
              exact List.cons_ne_nil n0 ntl
            have hq₂ : ((succ q).filter (fun s => decide (s ∉ v))).getLast? =
                some (((succ q).filter (fun s => decide (s ∉ v))).getLast hNne) :=
              List.getLast?_eq_getLast _ hNne
            have hq₂memN : ((succ q).filter (fun s => decide (s ∉ v))).getLast hNne ∈ (succ q).filter (fun s => decide (s ∉ v)) :=
              getLast?_mem_self hq₂
            have hq₂sd := (List.mem_filter.mp hq₂memN)
            have hq₂r : Reach succ start (((succ q).filter (fun s => decide (s ∉ v))).getLast hNne) :=
              Relation.ReflTransGen.tail hqr hq₂sd.1
            have hq₂nv : ((succ q).filter (fun s => decide (s ∉ v))).getLast hNne ∉ v :=
              of_decide_eq_true hq₂sd.2
            have hp₁last : (p.dropLast ++ (succ q).filter (fun s => decide (s ∉ v))).getLast? =
                some (((succ q).filter (fun s => decide (s ∉ v))).getLast hNne) := by
              conv_lhs => rw [getLast?_decomp hq₂, ← List.append_assoc]
              exact List.getLast?_concat _
            have hcard : R.card - (insert (((succ q).filter (fun s => decide (s ∉ v))).getLast hNne) v).card ≤ k := by
              have hc1 : (insert (((succ q).filter (fun s => decide (s ∉ v))).getLast hNne) v).card = v.card + 1 :=
                Finset.card_insert_of_not_mem hq₂nv
              have hc2 : (insert (((succ q).filter (fun s => decide (s ∉ v))).getLast hNne) v).card ≤ R.card :=
                Finset.card_le_card (Finset.insert_subset (hR _ hq₂r) hvR)
              omega
            have hp₁r : ∀ x ∈ p.dropLast ++ (succ q).filter (fun s => decide (s ∉ v)), Reach succ start x := by
              intro x hx
              rcases List.mem_append.mp hx with hx | hx
              · exact hdropr x hx
              · exact hsuccr x hx
            have hp₂r : ∀ x ∈ (p.dropLast ++ (succ q).filter (fun s => decide (s ∉ v))).dropLast ++
                ((succ ((((succ q).filter (fun s => decide (s ∉ v)))).getLast hNne)).filter (fun s => decide (s ∉ v))),
                Reach succ start x := by
              intro x hx
              rcases List.mem_append.mp hx with hx | hx
              · refine hp₁r x ?_
                rw [getLast?_decomp hp₁last]
                exact List.mem_append.mpr (Or.inl hx)
              · rw [List.mem_filter, decide_eq_true_eq] at hx
                exact Relation.ReflTransGen.tail hq₂r hx.1
            have hv₂r : ∀ x ∈ insert (((succ q).filter (fun s => decide (s ∉ v))).getLast hNne) v,
                Reach succ start x := by
              intro x hx
              rcases Finset.mem_insert.mp hx with rfl | hx
              · exact hq₂r
              · exact hvr x hx
            obtain ⟨fuel, r, hr⟩ := ihk (insert (((succ q).filter (fun s => decide (s ∉ v))).getLast hNne) v)
              hcard ((p.dropLast ++ (succ q).filter (fun s => decide (s ∉ v))).dropLast ++
                ((succ ((((succ q).filter (fun s => decide (s ∉ v)))).getLast hNne)).filter (fun s => decide (s ∉ v)))).length
              _ (le_refl _) hp₂r hv₂r
            refine ⟨fuel + 2, r, ?_⟩
            rw [fullSearchGo, hlast]
            simp only
            rw [hins]
            rw [fullSearchGo, hp₁last]
            exact hr
        · have hcard : R.card - (insert q v).card ≤ k := by
            have hc1 : (insert q v).card = v.card + 1 :=
              Finset.card_insert_of_not_mem hqv
            have hc2 : (insert q v).card ≤ R.card :=
              Finset.card_le_card (Finset.insert_subset (hR q hqr) hvR)
            omega
          have hp₁r : ∀ x ∈ p.dropLast ++ (succ q).filter (fun s => decide (s ∉ v)), Reach succ start x := by
            intro x hx
            rcases List.mem_append.mp hx with hx | hx
            · exact hdropr x hx
            · exact hsuccr x hx
          have hv₁r : ∀ x ∈ insert q v, Reach succ start x := by
            intro x hx
            rcases Finset.mem_insert.mp hx with rfl | hx
            · exact hqr
            · exact hvr x hx
          obtain ⟨fuel, r, hr⟩ := ihk (insert q v) hcard
            (p.dropLast ++ (succ q).filter (fun s => decide (s ∉ v))).length _ (le_refl _) hp₁r hv₁r
          refine ⟨fuel + 1, r, ?_⟩
          rw [fullSearchGo, hlast]
          exact hr

/-- With no successors, only the start is reachable. -/
theorem reach_singleton {succ : ν → List ν} {start : ν}
    (h0 : succ start = ∅) : ∀ x, Reach succ start x → x = start := by
  intro x hx
  induction hx with
  | refl => rfl
  | tail hxy hyz ih2 =>
    subst ih2
    rw [h0] at hyz
    cases hyz

section FullSearchClaims

variable {ν : Type} [DecidableEq ν]

/-- Claim C2: for every start node with a finite reachable state space,
`full_search(start)` terminates and returns a set that contains `start`,
contains every node reachable by a finite chain of `get_successors` steps,
and contains no unreachable node; a start node with no successors yields
exactly the singleton `{start}`. -/
theorem full_search_reachable (succ : ν → List ν) (start : ν)
    (hfin : {x | Reach succ start x}.Finite) :
    ∃ fuel r, fullSearch succ start fuel = some r ∧ start ∈ r ∧
      (∀ x, Reach succ start x → x ∈ r) ∧ (∀ x ∈ r, Reach succ start x) ∧
      (succ start = [] → r = {start}) := by
  have hR : ∀ x, Reach succ start x → x ∈ hfin.toFinset := by
    intro x hx
    rw [Set.Finite.mem_toFinset]
    exact hx
  obtain ⟨fuel, r, hr⟩ := fs_terminates hR hfin.toFinset.card ∅ (by simp) 1 [start]
    (by simp)
    (by
      intro x hx
      rcases List.mem_singleton.mp hx with rfl
      exact Relation.ReflTransGen.refl)
    (fun x hx => absurd hx (Finset.not_mem_empty x))
  have hInv0 : InvFS succ start [start] ∅ := by
    refine ⟨?_, ?_, Or.inl (List.mem_singleton.mpr rfl), ?_⟩
    · intro x hx
      rcases List.mem_singleton.mp hx with rfl
      exact Relation.ReflTransGen.refl
    · intro x hx
      exact absurd hx (Finset.not_mem_empty x)
    · intro x hx
      exact absurd hx (Finset.not_mem_empty x)
  obtain ⟨hsound, hcomp⟩ := fs_go_correct fuel [start] ∅ r hr hInv0
  refine ⟨fuel, r, hr, hcomp start Relation.ReflTransGen.refl, hcomp, hsound, ?_⟩
  intro h0
  apply Finset.ext
  intro x
  rw [Finset.mem_singleton]
  constructor
  · intro hx
    exact reach_singleton h0 x (hsound x hx)
  · rintro rfl
    exact hcomp _ Relation.ReflTransGen.refl

/-- Claim C8: `full_search` terminates for every start node whose set of
distinct reachable states is finite.  The function performs no check of
this precondition — an infinite successor relation is the caller's
responsibility — so finiteness appears here only as a hypothesis. -/
theorem full_search_terminates (succ : ν → List ν) (start : ν)
    (hfin : {x | Reach succ start x}.Finite) :
    ∃ fuel r, fullSearch succ start fuel = some r := by
  have hR : ∀ x, Reach succ start x → x ∈ hfin.toFinset := by
    intro x hx
    rw [Set.Finite.mem_toFinset]
    exact hx
  exact fs_terminates hR hfin.toFinset.card ∅ (by simp) 1 [start] (by simp)
    (by
      intro x hx
      rcases List.mem_singleton.mp hx with rfl
      exact Relation.ReflTransGen.refl)
    (fun x hx => absurd hx (Finset.not_mem_empty x))


/-- Witness for claim C2 on the diamond graph. -/
theorem full_search_reachable_witness :
    ∃ fuel r, fullSearch exFS 0 fuel = some r ∧ (0 : Fin 4) ∈ r ∧
      (∀ x, Reach exFS 0 x → x ∈ r) ∧ (∀ x ∈ r, Reach exFS 0 x) ∧
      (exFS 0 = [] → r = {0}) :=
  full_search_reachable exFS 0 (Set.toFinite _)

/-- Witness for claim C8 on a successor-free start node. -/
theorem full_search_terminates_witness :
    ∃ fuel r, fullSearch exFS8 0 fuel = some r :=
  full_search_terminates exFS8 0 (Set.toFinite _)

end FullSearchClaims

end FullSearch

namespace GraphsFullSearch

variable {ν : Type} [DecidableEq ν]


theorem fullSearchGo_eq (succ : ν → List ν) :
    ∀ (fuel : Nat) (p : List ν) (v : Finset ν),
      fullSearchGo succ fuel p v = FullSearch.fullSearchGo succ fuel p v := by
  intro fuel
  induction fuel with
  | zero => intro p v; rfl
  | succ fuel ih =>
    intro p v
    rw [fullSearchGo, FullSearch.fullSearchGo]
    cases hlast : p.getLast? with
    | none => rfl
    | some q => exact ih _ _

/-- Claim C9: the two `full_search` implementations are equivalent — for
the same start node and successor relation (and hashing behaviour, which
neither loop consults beyond set membership) both return the same visited
set, step for step. -/
theorem graphs_full_search_equiv :
    (∀ (succ : ν → List ν) (fuel : Nat) (p : List ν) (v : Finset ν),
      fullSearchGo succ fuel p v = FullSearch.fullSearchGo succ fuel p v) ∧
    (∀ (succ : ν → List ν) (start : ν) (fuel : Nat),
      fullSearch succ start fuel = FullSearch.fullSearch succ start fuel) := by
  refine ⟨fun succ => fullSearchGo_eq succ, ?_⟩
  intro succ start fuel
  exact fullSearchGo_eq succ fuel [start] ∅

end GraphsFullSearch

namespace PyObjects


/-- Claim C4 as stated is false: two distinct ASNode objects with equal ids
hash identically, yet they are not equal, because the provided base classes
define `__hash__` only and equality stays object identity. -/
theorem node_eq_hash_counterexample :
    (⟨0, 0, 0, 0⟩ : ASNodeObj (Fin 1)).id = (⟨1, 0, 0, 0⟩ : ASNodeObj (Fin 1)).id ∧
    asNodeHash (fun _ => 0) (⟨0, 0, 0, 0⟩ : ASNodeObj (Fin 1)) =
      asNodeHash (fun _ => 0) (⟨1, 0, 0, 0⟩ : ASNodeObj (Fin 1)) ∧
    asNodeEq (⟨0, 0, 0, 0⟩ : ASNodeObj (Fin 1)) ⟨1, 0, 0, 0⟩ = false ∧
    (⟨0, "a"⟩ : FNodeObj).id = (⟨1, "a"⟩ : FNodeObj).id ∧
    fNodeHash (fun _ => 0) ⟨0, "a"⟩ = fNodeHash (fun _ => 0) ⟨1, "a"⟩ ∧
    fNodeEq ⟨0, "a"⟩ ⟨1, "a"⟩ = false := by
  refine ⟨rfl, rfl, ?_, rfl, rfl, ?_⟩ <;> decide

/-- Claim C4 (amended): on both provided node base types the hash is
defined in terms of id alone — equal ids give identical hashes — while
equality is the inherited object identity: equal nodes are the same object
(hence have equal ids and hashes), but equal ids do not make two distinct
nodes equal. -/
theorem node_eq_hash_contract (σ : Type) [DecidableEq σ] (hsh : σ → Int)
    (hshF : String → Int) :
    (∀ a b : ASNodeObj σ, a.id = b.id → asNodeHash hsh a = asNodeHash hsh b) ∧
    (∀ a b : ASNodeObj σ, asNodeEq a b = true → a = b) ∧
    (∀ a b : ASNodeObj σ, asNodeEq a b = true →
      a.id = b.id ∧ asNodeHash hsh a = asNodeHash hsh b) ∧
    (∀ a b : FNodeObj, a.id = b.id → fNodeHash hshF a = fNodeHash hshF b) ∧
    (∀ a b : FNodeObj, fNodeEq a b = true → a = b) ∧
    (∀ a b : FNodeObj, fNodeEq a b = true →
      a.id = b.id ∧ fNodeHash hshF a = fNodeHash hshF b) := by
  refine ⟨?_, ?_, ?_, ?_, ?_, ?_⟩
  · intro a b hab
    unfold asNodeHash
    rw [hab]
  · intro a b hab
    exact of_decide_eq_true hab
  · intro a b hab
    have heq : a = b := of_decide_eq_true hab
    subst heq
    exact ⟨rfl, rfl⟩
  · intro a b hab
    unfold fNodeHash
    rw [hab]
  · intro a b hab
    exact of_decide_eq_true hab
  · intro a b hab
    have heq : a = b := of_decide_eq_true hab
    subst heq
    exact ⟨rfl, rfl⟩

/-- Witness for the amended claim C4 at concrete nodes. -/
theorem node_eq_hash_contract_witness :
    asNodeHash (fun _ : Fin 1 => 0) ⟨0, 0, 0, 0⟩ =
      asNodeHash (fun _ : Fin 1 => 0) ⟨1, 0, 0, 0⟩ ∧
    (⟨2, 0, 1, 1⟩ : ASNodeObj (Fin 1)) = ⟨2, 0, 1, 1⟩ ∧
    fNodeHash (fun _ => 7) ⟨0, "a"⟩ = fNodeHash (fun _ => 7) ⟨1, "a"⟩ :=
  ⟨(node_eq_hash_contract (Fin 1) (fun _ => 0) (fun _ => 7)).1 _ _ (by decide),
   (node_eq_hash_contract (Fin 1) (fun _ => 0) (fun _ => 7)).2.1 _ _ (by decide),
   (node_eq_hash_contract (Fin 1) (fun _ => 0) (fun _ => 7)).2.2.2.1 _ _ (by decide)⟩

end PyObjects
